import Mathlib

/-!
# Verification of the BoostedPP gradient-boosting core

A shallow embedding of the BoostedPP C++ sources (feature binner, split
finder, tree builder, predict path, objective layer and JSON model
serialisation) together with proofs and refutations of the frozen claims
about the natural-language specification.

Modelling conventions.
* C++ `float` values are embedded as exact rationals `ℚ`; the quiet-NaN
  sentinel used for missing cells is embedded as `Option ℚ` with `none`
  standing for NaN.  All arithmetic identities proved here are therefore
  identities of the real-number algorithm the code implements.
* Machine integers are embedded as `ℕ`; the one place where the code
  narrows a bin code into a `uint8_t` is embedded with an explicit `% 256`.
* Row-major matrices are embedded as lists of rows.
* Fallible operations return `Except`/`Option`.
-/

namespace BoostedPP

/-- A raw feature cell: `none` models the NaN missing-value sentinel. -/
abbrev Value := Option ℚ

/-- Embeds `BinInfo` (data.hpp): the ordered split points of one feature.
The `type` discriminator of the C++ struct is omitted: only the
`Numerical` variant is ever produced by the code. -/
structure BinInfo where
  splits : List ℚ
  deriving Repr, DecidableEq

/-- Embeds `BinInfo::get_bin` (data.cpp).  For NaN (`none`) it returns
`splits.size()`; otherwise the index returned by `std::upper_bound`, i.e.
the position of the first split strictly greater than the value (on the
sorted split lists produced by `create_bins`, that position is the length
of the prefix of splits that are `≤ value`). -/
def BinInfo.get_bin (bi : BinInfo) (v : Value) : ℕ :=
  match v with
  | none => bi.splits.length
  | some x => (bi.splits.takeWhile (fun s => decide (s ≤ x))).length

/-- Embeds `DataMatrix` (data.hpp): row-major raw features plus labels.
`ncols` mirrors the explicit `n_cols_` member. -/
structure DataMatrix where
  ncols : ℕ
  features : List (List Value)
  labels : List ℚ
  deriving Repr, DecidableEq

/-- `DataMatrix::get_feature(row, col)`. -/
def DataMatrix.get_feature (m : DataMatrix) (r c : ℕ) : Value :=
  (m.features.getD r []).getD c none

/-- Insertion of one element into a sorted list (helper for the embedding
of `std::sort` on a feature column). -/
def insertSorted (x : ℚ) : List ℚ → List ℚ
  | [] => [x]
  | a :: rest => if x ≤ a then x :: a :: rest else a :: insertSorted x rest

/-- Embeds `std::sort` on a list of rationals (insertion sort; the result
is the unique sorted rearrangement, which is all `create_bins` uses). -/
def sortQ (l : List ℚ) : List ℚ := l.foldr insertSorted []

/-- Helper for `removeConsecutiveDups`: drop elements equal to the
previously kept one. -/
def dropRuns (prev : ℚ) : List ℚ → List ℚ
  | [] => []
  | b :: rest => if b = prev then dropRuns prev rest else b :: dropRuns b rest

/-- Embeds `std::unique` + `erase` on a sorted vector: removal of
consecutive duplicates (the first element of every run is kept). -/
def removeConsecutiveDups : List ℚ → List ℚ
  | [] => []
  | a :: rest => a :: dropRuns a rest

/-- The per-column split computation of `DataMatrix::create_bins`
(data.cpp lines 185-219): extract non-NaN values in row order, sort,
deduplicate; if at most `n_bins` unique values remain use them all as
splits, otherwise take the `n_bins - 1` approximate quantile values. -/
def columnSplits (nBins : ℕ) (m : DataMatrix) (c : ℕ) : BinInfo :=
  let values := removeConsecutiveDups
    (sortQ ((m.features.map (fun row => row.getD c none)).filterMap id))
  if values.length ≤ nBins then
    ⟨values⟩
  else
    ⟨(List.range (nBins - 1)).map
      (fun i => values.getD ((i + 1) * values.length / nBins) 0)⟩

/-- The binned-matrix construction shared by `create_bins` and
`apply_bins` (data.cpp lines 222-229 / 237-244): every cell is pushed
through `get_bin` of its column; the store into the `uint8_t` vector
narrows the code modulo 256. -/
def binnedOf (info : List BinInfo) (m : DataMatrix) : List (List ℕ) :=
  m.features.map (fun row =>
    (List.range m.ncols).map
      (fun c => ((info.getD c ⟨[]⟩).get_bin (row.getD c none)) % 256))

/-- Embeds `DataMatrix::create_bins(n_bins)`: per-column bin info plus the
binned matrix. -/
def create_bins (nBins : ℕ) (m : DataMatrix) : List BinInfo × List (List ℕ) :=
  let info := (List.range m.ncols).map (columnSplits nBins m)
  (info, binnedOf info m)

/-- Embeds `DataMatrix::apply_bins(other)`: project this matrix through a
reference matrix's bin info. -/
def apply_bins (info : List BinInfo) (m : DataMatrix) : List (List ℕ) :=
  binnedOf info m

section IndexLemmas

theorem getD_map_of_lt {α β : Type} (f : α → β) (l : List α) (r : ℕ)
    (h : r < l.length) (d : β) (d' : α) :
    (l.map f).getD r d = f (l.getD r d') := by
  simp [List.getD_eq_getElem?_getD, List.getElem?_map,
    List.getElem?_eq_getElem, h]

theorem getD_map_range {α : Type} (g : ℕ → α) (C c : ℕ) (hc : c < C) (d : α) :
    ((List.range C).map g).getD c d = g c := by
  rw [getD_map_of_lt g (List.range C) c (by simpa using hc) d 0]
  simp [List.getD_eq_getElem?_getD, List.getElem?_range, hc]

/-- The cell `(r, c)` of the binned matrix, as stored (i.e. after the
narrowing into the `uint8_t` vector). -/
def binnedCell (binned : List (List ℕ)) (r c : ℕ) : ℕ :=
  (binned.getD r []).getD c 0

theorem binnedOf_cell (info : List BinInfo) (m : DataMatrix) (r c : ℕ)
    (hr : r < m.features.length) (hc : c < m.ncols) :
    binnedCell (binnedOf info m) r c =
      ((info.getD c ⟨[]⟩).get_bin (m.get_feature r c)) % 256 := by
  unfold binnedCell binnedOf DataMatrix.get_feature
  rw [getD_map_of_lt _ _ _ hr [] []]
  rw [getD_map_range _ _ _ hc 0]

theorem length_takeWhile_le {α : Type} (p : α → Bool) (l : List α) :
    (l.takeWhile p).length ≤ l.length := by
  induction l with
  | nil => simp
  | cons a t ih =>
    by_cases h : p a <;> simp [List.takeWhile_cons, h]
    omega

theorem get_bin_le (bi : BinInfo) (v : Value) : bi.get_bin v ≤ bi.splits.length := by
  cases v with
  | none => simp [BinInfo.get_bin]
  | some x => exact length_takeWhile_le _ _

theorem columnSplits_length_le (nBins : ℕ) (m : DataMatrix) (c : ℕ) :
    (columnSplits nBins m c).splits.length ≤ nBins := by
  unfold columnSplits
  simp only []
  split
  next h => simpa using h
  next h => simp

end IndexLemmas

section BinnerClaims

/-- The concrete one-column matrix `[1, NaN]` used to refute claim C1. -/
def mNaN : DataMatrix := ⟨1, [[some 1], [none]], []⟩

/-- The concrete one-column matrix `[1, NaN, 3, NaN, 5]` of claim C5. -/
def m5 : DataMatrix := ⟨1, [[some 1], [none], [some 3], [none], [some 5]], []⟩

/-- C1 counterexample: on the single raw column `[1, NaN]` with
`n_bins = 4` the code stored for the NaN row is `1` (the length of the
edge list `[1]`), not `n_bins - 1 = 3`; moreover the non-NaN row holding
the value `1` receives that same code `1`, i.e. the code that
`get_bin(NaN)` returns.  Both directions of the claimed
"`code = n_bins − 1` iff NaN" equivalence are false. -/
theorem claim1_counterexample :
    mNaN.get_feature 1 0 = none ∧
    binnedCell (create_bins 4 mNaN).2 1 0 = 1 ∧
    (1 : ℕ) ≠ 4 - 1 ∧
    mNaN.get_feature 0 0 ≠ none ∧
    binnedCell (create_bins 4 mNaN).2 0 0 =
      ((create_bins 4 mNaN).1.getD 0 ⟨[]⟩).get_bin none := by
  decide

/-- C1 (amended): after `create_bins(n_bins)` every stored bin code `c`
satisfies `c ≤ len(edges)` with `len(edges) ≤ n_bins` (not `< n_bins`:
`len(edges)` can equal `n_bins`, and the missing code is `len(edges)`
rather than `n_bins − 1`); every NaN cell receives exactly the code
`len(edges) % 256` (the narrowing to one byte only matters in the corner
case `len(edges) = 256`).  The converse direction of the original claim
is false: a non-NaN value greater than every edge also receives the
missing code (see the counterexample). -/
theorem claim1_binned_code_range (m : DataMatrix) (B r c : ℕ)
    (hr : r < m.features.length) (hc : c < m.ncols) :
    binnedCell (create_bins B m).2 r c ≤
      ((create_bins B m).1.getD c ⟨[]⟩).splits.length ∧
    ((create_bins B m).1.getD c ⟨[]⟩).splits.length ≤ B ∧
    (m.get_feature r c = none →
      binnedCell (create_bins B m).2 r c =
        ((create_bins B m).1.getD c ⟨[]⟩).splits.length % 256) := by
  have hinfo : (create_bins B m).1.getD c ⟨[]⟩ = columnSplits B m c := by
    unfold create_bins
    exact getD_map_range _ _ _ hc _
  have hcell := binnedOf_cell ((List.range m.ncols).map (columnSplits B m))
    m r c hr hc
  have hcell' : binnedCell (create_bins B m).2 r c =
      ((create_bins B m).1.getD c ⟨[]⟩).get_bin (m.get_feature r c) % 256 := by
    unfold create_bins at hcell ⊢
    simpa [getD_map_range _ _ _ hc (⟨[]⟩ : BinInfo)] using hcell
  refine ⟨?_, ?_, ?_⟩
  · calc binnedCell (create_bins B m).2 r c
        = ((create_bins B m).1.getD c ⟨[]⟩).get_bin (m.get_feature r c) % 256 :=
          hcell'
      _ ≤ ((create_bins B m).1.getD c ⟨[]⟩).get_bin (m.get_feature r c) :=
          Nat.mod_le _ _
      _ ≤ ((create_bins B m).1.getD c ⟨[]⟩).splits.length := get_bin_le _ _
  · rw [hinfo]; exact columnSplits_length_le B m c
  · intro hnan
    rw [hcell', hnan]
    simp [BinInfo.get_bin]

/-- Witness for the amended C1 at the concrete matrix of the
counterexample (`[1, NaN]`, `n_bins = 4`, NaN row). -/
theorem claim1_binned_code_range_witness :
    binnedCell (create_bins 4 mNaN).2 1 0 ≤
      ((create_bins 4 mNaN).1.getD 0 ⟨[]⟩).splits.length ∧
    ((create_bins 4 mNaN).1.getD 0 ⟨[]⟩).splits.length ≤ 4 ∧
    (mNaN.get_feature 1 0 = none →
      binnedCell (create_bins 4 mNaN).2 1 0 =
        ((create_bins 4 mNaN).1.getD 0 ⟨[]⟩).splits.length % 256) :=
  claim1_binned_code_range mNaN 4 1 0 (by decide) (by decide)

/-- C5 counterexample: on `[1, NaN, 3, NaN, 5]` with `n_bins = 4` the
computed edge list is `[1, 3, 5]` as claimed, but the stored codes are
`[1, 3, 2, 3, 3]`, not the claimed `[0, 3, 1, 3, 2]`: `get_bin` counts
the edges `≤ v` (`std::upper_bound`), so the value 1 gets code 1, and the
value 5 — greater than no edge — lands in the missing bin 3. -/
theorem claim5_counterexample :
    (create_bins 4 m5).1 = [⟨[1, 3, 5]⟩] ∧
    (create_bins 4 m5).2 ≠ [[0], [3], [1], [3], [2]] := by
  decide

/-- C5 (amended): binning the raw column `[1, NaN, 3, NaN, 5]` with
`n_bins = 4` yields the edge list `[1, 3, 5]` and the stored codes
`[1, 3, 2, 3, 3]`: the two NaN rows receive the missing code 3, the
values 1, 3 receive codes 1, 2, and the maximal value 5 also receives
the missing code 3. -/
theorem claim5_binner_scenario :
    (create_bins 4 m5).1 = [⟨[1, 3, 5]⟩] ∧
    (create_bins 4 m5).2 = [[1], [3], [2], [3], [3]] := by
  decide

end BinnerClaims

section SplitFinder

/-- The best-candidate record accumulated by the split sweep: the four
output parameters of `simd::find_best_split` (`out_split_gain`,
`out_split_bin`, `out_left_sum_g`, `out_left_sum_h`).  A `none` result
models the `-infinity` initial gain, i.e. "no valid split". -/
structure SweepBest where
  gain : ℚ
  bin : ℕ
  leftG : ℚ
  leftH : ℚ
  deriving Repr, DecidableEq

/-- One iteration of the bin loop of the fallback
`simd::find_best_split` (simd_utils.cpp, scalar variant): accumulate the
left prefix sums, derive the right sums from the node totals, check the
minimum-child-weight constraint, compute the gain (including the parent
term) and keep the strictly better candidate. -/
def sweepStep (gradHist hessHist : List ℚ) (sumG sumH wmin lam : ℚ)
    (st : ℚ × ℚ × Option SweepBest) (bin : ℕ) : ℚ × ℚ × Option SweepBest :=
  let lg := st.1 + gradHist.getD bin 0
  let lh := st.2.1 + hessHist.getD bin 0
  let rg := sumG - lg
  let rh := sumH - lh
  if wmin ≤ lh ∧ wmin ≤ rh then
    let gain := lg * lg / (lh + lam) + rg * rg / (rh + lam) -
      sumG * sumG / (sumH + lam)
    if (match st.2.2 with
        | none => true
        | some b => decide (b.gain < gain)) then
      (lg, lh, some ⟨gain, bin, lg, lh⟩)
    else (lg, lh, st.2.2)
  else (lg, lh, st.2.2)

/-- Embeds the fallback (scalar) `simd::find_best_split`
(simd_utils.cpp lines 910-954): sweep the bins from `0` to `n_bins - 1`
with `sweepStep`; `none` models the untouched `-infinity` gain. -/
def simd_find_best_split (gradHist hessHist : List ℚ) (nBins : ℕ)
    (sumG sumH wmin lam : ℚ) : Option SweepBest :=
  ((List.range nBins).foldl
    (sweepStep gradHist hessHist sumG sumH wmin lam) (0, 0, none)).2.2

/-- Sum of the first `k` histogram entries (out-of-range entries read as
zero, as `getD` does). -/
def prefixSum (l : List ℚ) (k : ℕ) : ℚ := ∑ j ∈ Finset.range k, l.getD j 0

theorem prefixSum_succ (l : List ℚ) (k : ℕ) :
    prefixSum l (k + 1) = prefixSum l k + l.getD k 0 :=
  Finset.sum_range_succ _ _

theorem prefixSum_eq_of_zeros (l : List ℚ) (n k : ℕ) (hk : k ≤ n)
    (hz : ∀ j, k ≤ j → j < n → l.getD j 0 = 0) :
    prefixSum l n = prefixSum l k := by
  unfold prefixSum
  rw [← Finset.sum_range_add_sum_Ico _ hk]
  have : ∑ j ∈ Finset.Ico k n, l.getD j 0 = 0 := by
    refine Finset.sum_eq_zero ?_
    intro j hj
    obtain ⟨h1, h2⟩ := Finset.mem_Ico.mp hj
    exact hz j h1 h2
  rw [this, add_zero]

/-- The property every candidate reported by the sweep satisfies: it is a
bin index below the sweep bound whose recorded left sums are the
inclusive prefix sums at that bin, both children clear the
minimum-child-weight constraint, and the recorded gain is the
regularised-gain formula evaluated at those prefix sums. -/
def sweepGood (gradHist hessHist : List ℚ) (sumG sumH wmin lam : ℚ)
    (k : ℕ) (b : SweepBest) : Prop :=
  b.bin < k ∧
  b.leftG = prefixSum gradHist (b.bin + 1) ∧
  b.leftH = prefixSum hessHist (b.bin + 1) ∧
  wmin ≤ b.leftH ∧ wmin ≤ sumH - b.leftH ∧
  b.gain = b.leftG * b.leftG / (b.leftH + lam) +
    (sumG - b.leftG) * (sumG - b.leftG) / ((sumH - b.leftH) + lam) -
    sumG * sumG / (sumH + lam)

theorem sweep_invariant (gradHist hessHist : List ℚ) (sumG sumH wmin lam : ℚ)
    (k : ℕ) :
    ((List.range k).foldl
        (sweepStep gradHist hessHist sumG sumH wmin lam) (0, 0, none)).1 =
      prefixSum gradHist k ∧
    ((List.range k).foldl
        (sweepStep gradHist hessHist sumG sumH wmin lam) (0, 0, none)).2.1 =
      prefixSum hessHist k ∧
    ∀ b, ((List.range k).foldl
        (sweepStep gradHist hessHist sumG sumH wmin lam) (0, 0, none)).2.2 =
        some b →
      sweepGood gradHist hessHist sumG sumH wmin lam k b := by
  induction k with
  | zero =>
    refine ⟨by simp [prefixSum], by simp [prefixSum], ?_⟩
    intro b hb
    simp at hb
  | succ k ih =>
    obtain ⟨ihG, ihH, ihB⟩ := ih
    rw [List.range_succ, List.foldl_append, List.foldl_cons, List.foldl_nil]
    generalize hst : (List.range k).foldl
      (sweepStep gradHist hessHist sumG sumH wmin lam) (0, 0, none) = st at ihG ihH ihB
    obtain ⟨g0, h0, b0⟩ := st
    simp only at ihG ihH
    subst ihG ihH
    unfold sweepStep
    simp only []
    by_cases hc : wmin ≤ prefixSum hessHist k + hessHist.getD k 0 ∧
        wmin ≤ sumH - (prefixSum hessHist k + hessHist.getD k 0)
    · rw [if_pos hc]
      split
      · refine ⟨by rw [prefixSum_succ], by rw [prefixSum_succ], ?_⟩
        intro b hb
        simp only [Option.some.injEq] at hb
        subst hb
        refine ⟨Nat.lt_succ_self k, ?_, ?_, ?_, ?_, ?_⟩
        · simp [prefixSum_succ]
        · simp [prefixSum_succ]
        · simpa [prefixSum_succ] using hc.1
        · simpa [prefixSum_succ] using hc.2
        · simp [prefixSum_succ]
      · refine ⟨by rw [prefixSum_succ], by rw [prefixSum_succ], ?_⟩
        intro b hb
        simp only at hb
        obtain ⟨h1, h2, h3, h4, h5, h6⟩ := ihB b hb
        exact ⟨Nat.lt_succ_of_lt h1, h2, h3, h4, h5, h6⟩
    · rw [if_neg hc]
      refine ⟨by rw [prefixSum_succ], by rw [prefixSum_succ], ?_⟩
      intro b hb
      simp only at hb
      obtain ⟨h1, h2, h3, h4, h5, h6⟩ := ihB b hb
      exact ⟨Nat.lt_succ_of_lt h1, h2, h3, h4, h5, h6⟩

/-- C2 (confirmed): whenever the fallback `simd::find_best_split` reports
a valid split (gain above `-infinity`, i.e. a `some` result), the
reported left hessian sum and the derived right hessian sum
`H_R = H_T - H_L` both clear `min_child_weight`, the reported left sums
are the inclusive prefix sums of the histograms at the reported bin, and
the reported gain equals
`G_L²/(H_L+λ) + G_R²/(H_R+λ) - G_T²/(H_T+λ)` computed from those prefix
sums. -/
theorem claim2_split_validity (gradHist hessHist : List ℚ) (nBins : ℕ)
    (sumG sumH wmin lam : ℚ) (hw : 0 < wmin) (hl : 0 ≤ lam) (b : SweepBest)
    (hres : simd_find_best_split gradHist hessHist nBins sumG sumH wmin lam =
      some b) :
    wmin ≤ b.leftH ∧ wmin ≤ sumH - b.leftH ∧
    b.leftG = prefixSum gradHist (b.bin + 1) ∧
    b.leftH = prefixSum hessHist (b.bin + 1) ∧
    b.gain = b.leftG * b.leftG / (b.leftH + lam) +
      (sumG - b.leftG) * (sumG - b.leftG) / ((sumH - b.leftH) + lam) -
      sumG * sumG / (sumH + lam) := by
  have h := (sweep_invariant gradHist hessHist sumG sumH wmin lam nBins).2.2 b hres
  obtain ⟨h1, h2, h3, h4, h5, h6⟩ := h
  exact ⟨h4, h5, h2, h3, h6⟩

/-- Witness for C2 at the gain scenario of the specification (§8,
scenario 3): totals `G_T = 0, H_T = 4`, one feature with histograms
`G = [-2, 2]`, `H = [2, 2]`, `w_min = 1`, `λ = 1`; the sweep reports bin
0 with `G_L = -2, H_L = 2` and gain `4/3 + 4/3 - 0 = 8/3`. -/
theorem claim2_split_validity_witness :
    (1 : ℚ) ≤ (⟨8/3, 0, -2, 2⟩ : SweepBest).leftH ∧
    (1 : ℚ) ≤ 4 - (⟨8/3, 0, -2, 2⟩ : SweepBest).leftH ∧
    (⟨8/3, 0, -2, 2⟩ : SweepBest).leftG = prefixSum [-2, 2] (0 + 1) ∧
    (⟨8/3, 0, -2, 2⟩ : SweepBest).leftH = prefixSum [2, 2] (0 + 1) ∧
    (⟨8/3, 0, -2, 2⟩ : SweepBest).gain =
      (⟨8/3, 0, -2, 2⟩ : SweepBest).leftG * (⟨8/3, 0, -2, 2⟩ : SweepBest).leftG /
        ((⟨8/3, 0, -2, 2⟩ : SweepBest).leftH + 1) +
      (0 - (⟨8/3, 0, -2, 2⟩ : SweepBest).leftG) *
        (0 - (⟨8/3, 0, -2, 2⟩ : SweepBest).leftG) /
        ((4 - (⟨8/3, 0, -2, 2⟩ : SweepBest).leftH) + 1) -
      0 * 0 / (4 + 1) :=
  claim2_split_validity [-2, 2] [2, 2] 2 0 4 1 1 (by norm_num) (by norm_num)
    ⟨8/3, 0, -2, 2⟩
    (by norm_num [simd_find_best_split, sweepStep, List.range_succ])

/-- The sweep never selects a candidate whose left prefix includes the
missing bin, stated on bare histograms: if every histogram entry
strictly above the missing-bin index `miss = len(edges)` is zero, the
node hessian total is the histogram total, and `min_child_weight > 0`,
then any reported split bin is strictly below `miss`: at any bin
`≥ miss` the right child's hessian sum is exactly zero and fails the
weight constraint. -/
theorem sweep_missing_bin_unselectable (gradHist hessHist : List ℚ)
    (nBins miss : ℕ) (sumG sumH wmin lam : ℚ) (hw : 0 < wmin)
    (hz : ∀ j, miss < j → j < nBins → hessHist.getD j 0 = 0)
    (hsum : sumH = prefixSum hessHist nBins) (b : SweepBest)
    (hres : simd_find_best_split gradHist hessHist nBins sumG sumH wmin lam =
      some b) :
    b.bin < miss := by
  have h := (sweep_invariant gradHist hessHist sumG sumH wmin lam nBins).2.2 b hres
  obtain ⟨hbin, _, hlH, _, hR, _⟩ := h
  by_contra hge
  push_neg at hge
  have hpre : prefixSum hessHist nBins = prefixSum hessHist (b.bin + 1) := by
    refine prefixSum_eq_of_zeros _ _ _ (by omega) ?_
    intro j hj1 hj2
    exact hz j (by omega) hj2
  rw [hsum, hpre, ← hlH] at hR
  simp at hR
  exact absurd (lt_of_lt_of_le hw hR) (lt_irrefl 0)

end SplitFinder

section TreeBuilder

/-- Embeds the `Task` enum (config.hpp). -/
inductive Task where
  | Regression
  | Binary
  deriving Repr, DecidableEq

/-- Embeds `GBDTConfig` (config.hpp) with the C++ default member values.
`n_threads` is an integer because `-1` means "all threads". -/
structure GBDTConfig where
  task : Task := Task.Regression
  n_rounds : ℕ := 100
  learning_rate : ℚ := 1/10
  max_depth : ℕ := 6
  min_data_in_leaf : ℕ := 20
  min_child_weight : ℚ := 1
  reg_lambda : ℚ := 1
  n_bins : ℕ := 256
  subsample : ℚ := 1
  colsample : ℚ := 1
  seed : ℕ := 0
  n_threads : ℤ := -1
  metric : String := "rmse"
  deriving Repr, DecidableEq

/-- Embeds `TreeNode` (tree.hpp) with the C++ default member values.
The threshold is a `Value` because the code can store a NaN threshold in
the defensive `split_bin ≥ splits.size()` branch. -/
structure TreeNode where
  is_leaf : Bool := true
  depth : ℕ := 0
  feature_id : ℕ := 0
  threshold : Value := some 0
  weight : ℚ := 0
  left_child : ℕ := 0
  right_child : ℕ := 0
  gain : ℚ := 0
  deriving Repr, DecidableEq

instance : Inhabited TreeNode := ⟨{}⟩

/-- The `TreeNode(depth, weight)` leaf constructor. -/
def TreeNode.leaf (depth : ℕ) (weight : ℚ) : TreeNode :=
  { is_leaf := true, depth := depth, weight := weight }

/-- Embeds `SplitInfo` (tree.hpp).  `gain = none` models the
`-infinity` initial gain, so `is_valid()` is `gain ≠ none`. -/
structure SplitInfo where
  feature_id : ℕ := 0
  bin_id : ℕ := 0
  threshold : Value := some 0
  gain : Option ℚ := none
  left_sum_gradients : ℚ := 0
  left_sum_hessians : ℚ := 0
  right_sum_gradients : ℚ := 0
  right_sum_hessians : ℚ := 0
  deriving Repr, DecidableEq

instance : Inhabited SplitInfo := ⟨{}⟩

/-- A training matrix after `create_bins`: the raw values, the per-column
bin info and the binned codes (all members of the single C++
`DataMatrix` object that `Tree::build` receives). -/
structure BinnedMatrix where
  ncols : ℕ
  features : List (List Value)
  bin_info : List BinInfo
  binned : List (List ℕ)
  deriving Repr, DecidableEq

/-- `DataMatrix::get_feature` on a binned matrix. -/
def BinnedMatrix.get_feature (d : BinnedMatrix) (r c : ℕ) : Value :=
  (d.features.getD r []).getD c none

/-- The per-feature histogram accumulation of `Tree::find_best_split`
(tree.cpp lines 206-211): scatter-add of `(g, h)` into the bin code of
each row, rows processed in `row_indices` order.  `List.set` ignores an
out-of-range bin, where the C++ scatter write would be out of bounds. -/
def feature_histograms (d : BinnedMatrix) (g h : List ℚ) (rows : List ℕ)
    (nBins f : ℕ) : List ℚ × List ℚ :=
  rows.foldl (fun acc r =>
    let bin := binnedCell d.binned r f
    (acc.1.set bin (acc.1.getD bin 0 + g.getD r 0),
     acc.2.set bin (acc.2.getD bin 0 + h.getD r 0)))
    (List.replicate nBins 0, List.replicate nBins 0)

/-- The strict `split.gain > best_split.gain` comparison on gains with
`none` as `-infinity`. -/
def gainGT : Option ℚ → Option ℚ → Bool
  | none, _ => false
  | some _, none => true
  | some a, some b => decide (b < a)

/-- The per-feature candidate assembled by `Tree::find_best_split`
(tree.cpp lines 213-242): sweep outputs plus the bin-to-threshold
conversion (`splits[split_bin]` when in range, NaN otherwise; the
threshold member keeps its default when the candidate is invalid). -/
def featureCandidate (cfg : GBDTConfig) (d : BinnedMatrix) (g h : List ℚ)
    (rows : List ℕ) (sumG sumH : ℚ) (f : ℕ) : SplitInfo :=
  let hists := feature_histograms d g h rows cfg.n_bins f
  match simd_find_best_split hists.1 hists.2 cfg.n_bins sumG sumH
      cfg.min_child_weight cfg.reg_lambda with
  | none =>
    { feature_id := f, bin_id := 0, gain := none,
      left_sum_gradients := 0, left_sum_hessians := 0,
      right_sum_gradients := sumG - 0, right_sum_hessians := sumH - 0 }
  | some b =>
    { feature_id := f, bin_id := b.bin, gain := some b.gain,
      left_sum_gradients := b.leftG, left_sum_hessians := b.leftH,
      right_sum_gradients := sumG - b.leftG,
      right_sum_hessians := sumH - b.leftH,
      threshold :=
        if hlt : b.bin < (d.bin_info.getD f ⟨[]⟩).splits.length then
          some ((d.bin_info.getD f ⟨[]⟩).splits.get ⟨b.bin, hlt⟩)
        else none }

/-- Embeds `Tree::find_best_split` (tree.cpp lines 180-253): compute the
per-feature candidates and keep the strictly best one; the smallest
feature id wins ties because the reduction keeps the incumbent unless
strictly beaten. -/
def tree_find_best_split (cfg : GBDTConfig) (d : BinnedMatrix)
    (g h : List ℚ) (rows : List ℕ) (sumG sumH : ℚ) : SplitInfo :=
  ((List.range d.ncols).map (featureCandidate cfg d g h rows sumG sumH)).foldl
    (fun best s => if gainGT s.gain best.gain then s else best) {}

/-- The missing-goes-right routing shared by `Tree::split_rows` and
`Tree::predict_one`: NaN never goes left, and `x ≤ NaN` is false. -/
def goesLeft (v t : Value) : Bool :=
  match v, t with
  | none, _ => false
  | some _, none => false
  | some x, some tq => decide (x ≤ tq)

/-- Embeds `Tree::split_rows` (tree.cpp lines 255-279): stable partition
of the row set by the split threshold, NaN to the right. -/
def split_rows (d : BinnedMatrix) (rows : List ℕ) (s : SplitInfo) :
    List ℕ × List ℕ :=
  (rows.filter (fun r => goesLeft (d.get_feature r s.feature_id) s.threshold),
   rows.filter (fun r => !goesLeft (d.get_feature r s.feature_id) s.threshold))

/-- Embeds `Tree::calculate_leaf_weight` (tree.cpp lines 281-283). -/
def calculate_leaf_weight (cfg : GBDTConfig) (sumG sumH : ℚ) : ℚ :=
  -sumG / (sumH + cfg.reg_lambda)

/-- The gradient total a node computes over its row set (tree.cpp lines
292-299), in row order. -/
def rowSum (v : List ℚ) (rows : List ℕ) : ℚ :=
  rows.foldl (fun a r => a + v.getD r 0) 0

/-- Embeds `Tree::build_node` (tree.cpp lines 285-349).  The `fuel`
argument makes the recursion structural; every call site maintains
`max_depth - depth ≤ fuel`, so the fuel-exhausted branch (which emits
the same leaf as the C++ depth check would) is never taken: when
`fuel = 0` the guard `depth ≥ max_depth` already fires.  Returns the
grown node array and the index of the built node. -/
def build_node (cfg : GBDTConfig) (d : BinnedMatrix) (g h : List ℚ) :
    ℕ → List ℕ → ℕ → List TreeNode → List TreeNode × ℕ
  | fuel, rows, depth, nodes =>
    let sumG := rowSum g rows
    let sumH := rowSum h rows
    if cfg.max_depth ≤ depth ∨ sumH < cfg.min_child_weight ∨
        rows.length ≤ cfg.min_data_in_leaf then
      (nodes ++ [TreeNode.leaf depth (calculate_leaf_weight cfg sumG sumH)],
       nodes.length)
    else
      match fuel with
      | 0 =>
        (nodes ++ [TreeNode.leaf depth (calculate_leaf_weight cfg sumG sumH)],
         nodes.length)
      | fuel' + 1 =>
        let best := tree_find_best_split cfg d g h rows sumG sumH
        if best.gain = none then
          (nodes ++ [TreeNode.leaf depth (calculate_leaf_weight cfg sumG sumH)],
           nodes.length)
        else
          let parts := split_rows d rows best
          if parts.1 = [] ∨ parts.2 = [] then
            (nodes ++ [TreeNode.leaf depth (calculate_leaf_weight cfg sumG sumH)],
             nodes.length)
          else
            let nidx := nodes.length
            let nodes1 := nodes ++ [default]
            let resL := build_node cfg d g h fuel' parts.1 (depth + 1) nodes1
            let resR := build_node cfg d g h fuel' parts.2 (depth + 1) resL.1
            (resR.1.set nidx
              { is_leaf := false, depth := depth,
                feature_id := best.feature_id,
                threshold := best.threshold,
                left_child := resL.2, right_child := resR.2,
                gain := best.gain.getD 0 },
             nidx)

/-- Embeds `Tree::build` (tree.cpp lines 23-35): clear the node array and
build from the root at depth 0.  The fuel `cfg.max_depth` satisfies the
`max_depth - depth ≤ fuel` invariant at entry. -/
def tree_build (cfg : GBDTConfig) (d : BinnedMatrix) (g h : List ℚ)
    (rows : List ℕ) : List TreeNode × ℕ :=
  build_node cfg d g h cfg.max_depth rows 0 []

/-- The node-to-node loop of `Tree::predict_one` (tree.cpp lines 42-57),
with fuel: `none` models a walk that runs off the node array or fails to
reach a leaf within the fuel (impossible for the trees the builder
produces, as proved below). -/
def walk (nodes : List TreeNode) (x : ℕ → Value) : ℕ → ℕ → Option ℚ
  | 0, _ => none
  | fuel + 1, idx =>
    if idx < nodes.length then
      let nd := nodes.getD idx default
      if nd.is_leaf then some nd.weight
      else if goesLeft (x nd.feature_id) nd.threshold then
        walk nodes x fuel nd.left_child
      else
        walk nodes x fuel nd.right_child
    else none

/-- Embeds `Tree::predict_one` for a non-empty node array: start the walk
at node 0 with enough fuel for any strictly-increasing walk. -/
def predict_one (nodes : List TreeNode) (x : ℕ → Value) : Option ℚ :=
  walk nodes x (nodes.length + 1) 0

/-- Index `j` of the node array is good when, if it holds an internal
node, both child indices are strictly greater than `j` and strictly less
than the node count. -/
def goodNode (nodes : List TreeNode) (j : ℕ) : Prop :=
  (nodes.getD j default).is_leaf = false →
    j < (nodes.getD j default).left_child ∧
    (nodes.getD j default).left_child < nodes.length ∧
    j < (nodes.getD j default).right_child ∧
    (nodes.getD j default).right_child < nodes.length

instance (nodes : List TreeNode) (j : ℕ) : Decidable (goodNode nodes j) := by
  unfold goodNode
  infer_instance

/-- Child-pointer well-formedness: every index of the node array is good. -/
def wfNodes (nodes : List TreeNode) : Prop :=
  ∀ j, j < nodes.length → goodNode nodes j

instance (nodes : List TreeNode) : Decidable (wfNodes nodes) := by
  unfold wfNodes
  infer_instance

end TreeBuilder

section TreeBuilderProofs

theorem getD_append_lt {α : Type} [Inhabited α] (l1 l2 : List α) (j : ℕ)
    (h : j < l1.length) (d : α) : (l1 ++ l2).getD j d = l1.getD j d :=
  List.getD_append l1 l2 d j h

theorem getD_concat_len {α : Type} [Inhabited α] (l : List α) (x d : α) :
    (l ++ [x]).getD l.length d = x := by
  simp [List.getD_eq_getElem?_getD, List.getElem?_append_right]

theorem getD_set_ne {α : Type} [Inhabited α] (l : List α) (i j : ℕ) (x d : α)
    (h : i ≠ j) : (l.set i x).getD j d = l.getD j d := by
  simp [List.getD_eq_getElem?_getD, List.getElem?_set_ne h]

theorem getD_set_self {α : Type} [Inhabited α] (l : List α) (i : ℕ) (x d : α)
    (h : i < l.length) : (l.set i x).getD i d = x := by
  simp [List.getD_eq_getElem?_getD, List.getElem?_set_self, h]

/-- What one `build_node` call guarantees about its result, relative to
the node array it received: the returned index is where the new node was
placed (the old length), the array strictly grew, the old prefix is
untouched, and every index of the newly written range is good. -/
def buildRes (nodes : List TreeNode) (res : List TreeNode × ℕ) : Prop :=
  res.2 = nodes.length ∧
  nodes.length < res.1.length ∧
  (∀ j, j < nodes.length → res.1.getD j default = nodes.getD j default) ∧
  (∀ j, nodes.length ≤ j → j < res.1.length → goodNode res.1 j)

theorem buildRes_leaf (nodes : List TreeNode) (depth : ℕ) (w : ℚ) :
    buildRes nodes (nodes ++ [TreeNode.leaf depth w], nodes.length) := by
  refine ⟨rfl, by simp, ?_, ?_⟩
  · intro j hj
    exact getD_append_lt _ _ _ hj _
  · intro j hj1 hj2
    have hj : j = nodes.length := by
      simp at hj2
      omega
    subst hj
    intro habs
    rw [getD_concat_len] at habs
    simp [TreeNode.leaf] at habs

theorem buildRes_internal (nodes : List TreeNode) (resL resR : List TreeNode × ℕ)
    (dep fid : ℕ) (thr : Value) (gn : ℚ)
    (hL : buildRes (nodes ++ [default]) resL)
    (hR : buildRes resL.1 resR) :
    buildRes nodes
      (resR.1.set nodes.length
        { is_leaf := false, depth := dep, feature_id := fid, threshold := thr,
          left_child := resL.2, right_child := resR.2, gain := gn },
       nodes.length) := by
  obtain ⟨hLi, hLlen, hLpre, hLgood⟩ := hL
  obtain ⟨hRi, hRlen, hRpre, hRgood⟩ := hR
  have hlen1 : (nodes ++ [default]).length = nodes.length + 1 := by simp
  have hn0L : nodes.length + 1 < resL.1.length := by omega
  have hn0R : nodes.length < resR.1.length := by omega
  refine ⟨rfl, by simpa using hn0R, ?_, ?_⟩
  · intro j hj
    rw [getD_set_ne _ _ _ _ _ (by omega)]
    rw [hRpre j (by omega), hLpre j (by omega)]
    exact getD_append_lt _ _ _ hj _
  · intro j hj1 hj2
    simp only [List.length_set] at hj2
    rcases Nat.eq_or_lt_of_le hj1 with hj | hj
    · subst hj
      intro _
      rw [getD_set_self _ _ _ _ hn0R]
      simp only []
      refine ⟨by omega, ?_, by omega, ?_⟩
      · simp only [List.length_set]
        omega
      · simp only [List.length_set]
        omega
    · have heq : (resR.1.set nodes.length
          { is_leaf := false, depth := dep, feature_id := fid, threshold := thr,
            left_child := resL.2, right_child := resR.2, gain := gn }).getD j default =
          resR.1.getD j default := getD_set_ne _ _ _ _ _ (by omega)
      by_cases hjL : j < resL.1.length
      · have heq2 : resR.1.getD j default = resL.1.getD j default := hRpre j hjL
        have hgood := hLgood j (by omega) hjL
        intro hleaf
        rw [heq, heq2] at hleaf ⊢
        obtain ⟨g1, g2, g3, g4⟩ := hgood hleaf
        refine ⟨g1, ?_, g3, ?_⟩ <;> simp only [List.length_set] <;> omega
      · have hgood := hRgood j (by omega) hj2
        intro hleaf
        rw [heq] at hleaf ⊢
        obtain ⟨g1, g2, g3, g4⟩ := hgood hleaf
        refine ⟨g1, ?_, g3, ?_⟩ <;> simp only [List.length_set] <;> omega

theorem build_node_ok (cfg : GBDTConfig) (d : BinnedMatrix) (g h : List ℚ) :
    ∀ (fuel : ℕ) (rows : List ℕ) (depth : ℕ) (nodes : List TreeNode),
      buildRes nodes (build_node cfg d g h fuel rows depth nodes) := by
  intro fuel
  induction fuel with
  | zero =>
    intro rows depth nodes
    rw [build_node]
    split
    · exact buildRes_leaf _ _ _
    · exact buildRes_leaf _ _ _
  | succ fuel ih =>
    intro rows depth nodes
    rw [build_node]
    split
    · exact buildRes_leaf _ _ _
    · simp only []
      split
      · exact buildRes_leaf _ _ _
      · split
        · exact buildRes_leaf _ _ _
        · exact buildRes_internal _ _ _ _ _ _ _ (ih _ _ _) (ih _ _ _)

theorem tree_build_root_wf (cfg : GBDTConfig) (d : BinnedMatrix)
    (g h : List ℚ) (rows : List ℕ) :
    (tree_build cfg d g h rows).2 = 0 ∧
    (tree_build cfg d g h rows).1 ≠ [] ∧
    wfNodes (tree_build cfg d g h rows).1 := by
  have hres := build_node_ok cfg d g h cfg.max_depth rows 0 []
  obtain ⟨h1, h2, _, h4⟩ := hres
  simp only [List.length_nil] at h1 h2 h4
  unfold tree_build
  refine ⟨h1, ?_, ?_⟩
  · intro habs
    rw [habs] at h2
    simp at h2
  · intro j hj
    exact h4 j (Nat.zero_le j) hj

theorem walk_isSome (nodes : List TreeNode) (x : ℕ → Value)
    (hwf : wfNodes nodes) :
    ∀ (fuel idx : ℕ), idx < nodes.length → nodes.length - idx < fuel →
      (walk nodes x fuel idx).isSome := by
  intro fuel
  induction fuel with
  | zero =>
    intro idx h1 h2
    omega
  | succ fuel ih =>
    intro idx h1 h2
    rw [walk]
    rw [if_pos h1]
    simp only []
    by_cases hleaf : (nodes.getD idx default).is_leaf = true
    · rw [if_pos hleaf]
      simp
    · have hleaf' : (nodes.getD idx default).is_leaf = false := by
        simpa using hleaf
      obtain ⟨g1, g2, g3, g4⟩ := hwf idx h1 hleaf'
      rw [if_neg hleaf]
      split
      · exact ih _ g2 (by omega)
      · exact ih _ g4 (by omega)

theorem predict_one_isSome (nodes : List TreeNode) (x : ℕ → Value)
    (hwf : wfNodes nodes) (hne : nodes ≠ []) :
    (predict_one nodes x).isSome := by
  have hlen : 0 < nodes.length := List.length_pos.mpr hne
  exact walk_isSome nodes x hwf (nodes.length + 1) 0 hlen (by omega)

/-- C10 (confirmed): for every tree produced by `Tree::build` the root is
stored at index 0, every internal node's children are strictly greater
than the node's own index and strictly below the node count
(`wfNodes`), and consequently the `predict_one` walk — whose node index
therefore strictly increases at every step — terminates at a leaf for
every input row (the walk returns a value within `size + 1` steps). -/
theorem claim10_build_invariant (cfg : GBDTConfig) (d : BinnedMatrix)
    (g h : List ℚ) (rows : List ℕ) :
    (tree_build cfg d g h rows).2 = 0 ∧
    wfNodes (tree_build cfg d g h rows).1 ∧
    ∀ x : ℕ → Value, (predict_one (tree_build cfg d g h rows).1 x).isSome := by
  obtain ⟨h1, h2, h3⟩ := tree_build_root_wf cfg d g h rows
  exact ⟨h1, h3, fun x => predict_one_isSome _ x h3 h2⟩

/-- C7 (confirmed): the leaf weight is `-G / (H + λ)`.  First conjunct:
`Tree::calculate_leaf_weight` computes exactly that for all aggregates
and configurations.  Second conjunct: every node the tree builder
returns as a leaf carries the weight `-G / (H + λ)` where `G`, `H` are
the gradient and hessian totals of the node's row set.  Third conjunct:
the concrete instance `G = -4, H = 2, λ = 1` gives `4/3`. -/
theorem claim7_leaf_weight :
    (∀ (cfg : GBDTConfig) (G H : ℚ),
      calculate_leaf_weight cfg G H = -G / (H + cfg.reg_lambda)) ∧
    (∀ (cfg : GBDTConfig) (d : BinnedMatrix) (g h : List ℚ) (fuel : ℕ)
        (rows : List ℕ) (depth : ℕ) (nodes : List TreeNode),
      ((build_node cfg d g h fuel rows depth nodes).1.getD
          (build_node cfg d g h fuel rows depth nodes).2 default).is_leaf = true →
      ((build_node cfg d g h fuel rows depth nodes).1.getD
          (build_node cfg d g h fuel rows depth nodes).2 default).weight =
        -(rowSum g rows) / (rowSum h rows + cfg.reg_lambda)) ∧
    calculate_leaf_weight {} (-4) 2 = 4/3 := by
  refine ⟨fun cfg G H => rfl, ?_, by norm_num [calculate_leaf_weight]⟩
  intro cfg d g h fuel rows depth nodes
  have hleafD : ∀ dep w,
      ((nodes ++ [TreeNode.leaf dep w]).getD nodes.length default) =
        TreeNode.leaf dep w := fun dep w => getD_concat_len _ _ _
  cases fuel with
  | zero =>
    rw [build_node]
    split
    all_goals
      rw [hleafD]
      intro _
      simp [TreeNode.leaf, calculate_leaf_weight]
  | succ fuel =>
    rw [build_node]
    split
    · rw [hleafD]
      intro _
      simp [TreeNode.leaf, calculate_leaf_weight]
    · simp only []
      split
      · rw [hleafD]
        intro _
        simp [TreeNode.leaf, calculate_leaf_weight]
      · split
        · rw [hleafD]
          intro _
          simp [TreeNode.leaf, calculate_leaf_weight]
        · obtain ⟨hLi, hLlen, hLpre, hLgood⟩ :=
            build_node_ok cfg d g h fuel
              (split_rows d rows
                (tree_find_best_split cfg d g h rows (rowSum g rows)
                  (rowSum h rows))).1
              (depth + 1) (nodes ++ [default])
          obtain ⟨hRi, hRlen, hRpre, hRgood⟩ :=
            build_node_ok cfg d g h fuel
              (split_rows d rows
                (tree_find_best_split cfg d g h rows (rowSum g rows)
                  (rowSum h rows))).2
              (depth + 1)
              (build_node cfg d g h fuel
                (split_rows d rows
                  (tree_find_best_split cfg d g h rows (rowSum g rows)
                    (rowSum h rows))).1
                (depth + 1) (nodes ++ [default])).1
          intro habs
          rw [getD_set_self] at habs
          · simp at habs
          · simp only [List.length_append, List.length_cons,
              List.length_nil] at hLlen
            omega

end TreeBuilderProofs

section HistogramClaims

/-- The scatter-add step of the histogram loop of `Tree::find_best_split`
(tree.cpp lines 206-211), named so the fold can be reasoned about. -/
def histStep (d : BinnedMatrix) (g h : List ℚ) (f : ℕ)
    (acc : List ℚ × List ℚ) (r : ℕ) : List ℚ × List ℚ :=
  (acc.1.set (binnedCell d.binned r f)
     (acc.1.getD (binnedCell d.binned r f) 0 + g.getD r 0),
   acc.2.set (binnedCell d.binned r f)
     (acc.2.getD (binnedCell d.binned r f) 0 + h.getD r 0))

theorem feature_histograms_eq_foldl (d : BinnedMatrix) (g h : List ℚ)
    (rows : List ℕ) (nBins f : ℕ) :
    feature_histograms d g h rows nBins f =
      rows.foldl (histStep d g h f)
        (List.replicate nBins 0, List.replicate nBins 0) := rfl

/-- Setting index `i < l.length` to its old value plus `x` adds `x` to
the list sum. -/
theorem sum_set_add (l : List ℚ) : ∀ (i : ℕ) (x : ℚ), i < l.length →
    (l.set i (l.getD i 0 + x)).sum = l.sum + x := by
  induction l with
  | nil => intro i x hx; simp at hx
  | cons a t ih =>
    intro i x hx
    cases i with
    | zero =>
      rw [List.getD_cons_zero, List.set_cons_zero, List.sum_cons,
        List.sum_cons]
      ring
    | succ i =>
      rw [List.getD_cons_succ, List.set_cons_succ, List.sum_cons,
        List.sum_cons, ih i x (by simpa using hx)]
      ring

theorem foldl_addD_shift (v : List ℚ) : ∀ (rows : List ℕ) (a : ℚ),
    rows.foldl (fun acc r => acc + v.getD r 0) a =
      a + rows.foldl (fun acc r => acc + v.getD r 0) 0 := by
  intro rows
  induction rows with
  | nil => intro a; simp
  | cons r rest ih =>
    intro a
    rw [List.foldl_cons, List.foldl_cons, ih (a + v.getD r 0),
      ih (0 + v.getD r 0)]
    ring

theorem rowSum_cons (v : List ℚ) (r : ℕ) (rest : List ℕ) :
    rowSum v (r :: rest) = v.getD r 0 + rowSum v rest := by
  unfold rowSum
  rw [List.foldl_cons, foldl_addD_shift]
  ring

/-- Invariant of the histogram scatter-add loop on the hessian side:
starting from any accumulator whose hessian histogram has length
`nBins`, when every visited row's bin code is at most `miss < nBins`,
the loop preserves the length, adds exactly the hessian row sum to the
histogram total, and never touches an entry strictly above `miss`. -/
theorem fh_hess_invariant (d : BinnedMatrix) (g h : List ℚ)
    (nBins f miss : ℕ) :
    ∀ (rows : List ℕ) (acc : List ℚ × List ℚ),
      acc.2.length = nBins → miss < nBins →
      (∀ r ∈ rows, binnedCell d.binned r f ≤ miss) →
      (rows.foldl (histStep d g h f) acc).2.length = nBins ∧
      (rows.foldl (histStep d g h f) acc).2.sum =
        acc.2.sum + rowSum h rows ∧
      ∀ j, miss < j →
        (rows.foldl (histStep d g h f) acc).2.getD j 0 =
          acc.2.getD j 0 := by
  intro rows
  induction rows with
  | nil =>
    intro acc hlen hmiss hcodes
    exact ⟨hlen, by simp [rowSum], fun j _ => rfl⟩
  | cons r rest ih =>
    intro acc hlen hmiss hcodes
    have hbin : binnedCell d.binned r f ≤ miss :=
      hcodes r (List.mem_cons_self r rest)
    have hblt : binnedCell d.binned r f < acc.2.length := by omega
    have hsnd : (histStep d g h f acc r).2 =
        acc.2.set (binnedCell d.binned r f)
          (acc.2.getD (binnedCell d.binned r f) 0 + h.getD r 0) := rfl
    rw [List.foldl_cons]
    obtain ⟨ihlen, ihsum, ihpres⟩ := ih (histStep d g h f acc r)
      (by rw [hsnd, List.length_set, hlen]) hmiss
      (fun q hq => hcodes q (List.mem_cons_of_mem r hq))
    refine ⟨ihlen, ?_, ?_⟩
    · rw [ihsum, hsnd, sum_set_add acc.2 _ _ hblt, rowSum_cons]
      ring
    · intro j hj
      rw [ihpres j hj, hsnd]
      exact getD_set_ne acc.2 _ j _ 0 (by omega)

theorem getD_replicate_zero (n : ℕ) : ∀ j : ℕ,
    (List.replicate n (0 : ℚ)).getD j 0 = 0 := by
  induction n with
  | zero => intro j; simp
  | succ n ih =>
    intro j
    cases j with
    | zero => simp [List.replicate]
    | succ j => simp [List.replicate, ih j]

/-- The hessian histogram that `Tree::find_best_split` accumulates: it
has `nBins` entries, sums to the node's hessian total, and is zero
strictly above the missing code when all rows have codes at most the
missing code. -/
theorem feature_histograms_hess (d : BinnedMatrix) (g h : List ℚ)
    (rows : List ℕ) (nBins f miss : ℕ) (hmiss : miss < nBins)
    (hcodes : ∀ r ∈ rows, binnedCell d.binned r f ≤ miss) :
    (feature_histograms d g h rows nBins f).2.length = nBins ∧
    (feature_histograms d g h rows nBins f).2.sum = rowSum h rows ∧
    ∀ j, miss < j →
      (feature_histograms d g h rows nBins f).2.getD j 0 = 0 := by
  rw [feature_histograms_eq_foldl]
  obtain ⟨h1, h2, h3⟩ := fh_hess_invariant d g h nBins f miss rows
    (List.replicate nBins 0, List.replicate nBins 0) (by simp) hmiss hcodes
  refine ⟨h1, ?_, ?_⟩
  · rw [h2]
    simp
  · intro j hj
    rw [h3 j hj]
    exact getD_replicate_zero nBins j

theorem prefixSum_eq_sum (l : List ℚ) : prefixSum l l.length = l.sum := by
  induction l with
  | nil => simp [prefixSum]
  | cons a t ih =>
    unfold prefixSum at ih ⊢
    rw [List.length_cons, Finset.sum_range_succ']
    simp only [List.getD_cons_succ, List.getD_cons_zero, List.sum_cons]
    rw [ih]
    ring

/-- C3 (confirmed): for every feature, the split-finder sweep over the
histograms that `Tree::find_best_split` accumulates from the binned
data never selects a candidate whose left prefix includes the bin
reserved for missing values.  If every row's bin code for feature `f`
is at most the missing code `miss` (as `apply_bins` guarantees with
`miss = len(edges)`), `miss < n_bins`, and `min_child_weight > 0`, then
any split reported by the fallback sweep on the accumulated histograms,
with the node hessian total taken over the node's rows, has its bin
strictly below `miss`: accumulating the missing bin into the left
prefix leaves a right child whose hessian sum is exactly zero, which
fails the weight constraint. -/
theorem claim3_missing_bin_unselectable (d : BinnedMatrix) (g h : List ℚ)
    (rows : List ℕ) (nBins f miss : ℕ) (sumG wmin lam : ℚ)
    (hw : 0 < wmin) (hmiss : miss < nBins)
    (hcodes : ∀ r ∈ rows, binnedCell d.binned r f ≤ miss) (b : SweepBest)
    (hres : simd_find_best_split (feature_histograms d g h rows nBins f).1
        (feature_histograms d g h rows nBins f).2 nBins sumG
        (rowSum h rows) wmin lam = some b) :
    b.bin < miss := by
  obtain ⟨hlen, hsum, hz⟩ :=
    feature_histograms_hess d g h rows nBins f miss hmiss hcodes
  refine sweep_missing_bin_unselectable _ _ nBins miss sumG _ wmin lam hw
    ?_ ?_ b hres
  · intro j hj _
    exact hz j hj
  · rw [← hsum, ← prefixSum_eq_sum, hlen]

/-- A concrete binned matrix for the C3 witness: one feature column,
two rows with bin codes 0 and 1. -/
def dC3 : BinnedMatrix :=
  ⟨1, [[some 0], [some 1]], [⟨[0]⟩], [[0], [1]]⟩

/-- Witness for C3: two rows with bin codes 0 and 1, gradients
`[-1, 1]`, hessians `[1, 1]`, missing code `miss = 1`, `n_bins = 2`,
`w_min = 1`, `λ = 1`: the accumulated histograms are `G = [-1, 1]`,
`H = [1, 1]`, the sweep reports bin 0 with gain 1, and `0 < 1`. -/
theorem claim3_missing_bin_unselectable_witness :
    (⟨1, 0, -1, 1⟩ : SweepBest).bin < 1 :=
  claim3_missing_bin_unselectable dC3 [-1, 1] [1, 1] [0, 1] 2 0 1 0 1 1
    (by norm_num) (by norm_num)
    (by decide)
    ⟨1, 0, -1, 1⟩
    (by norm_num [feature_histograms, binnedCell, dC3, rowSum,
        simd_find_best_split, sweepStep, List.range_succ, List.set])

end HistogramClaims

section GBDTModel

/-- Embeds the `Tree` class data (tree.hpp): the flat node array.  The
configuration member does not influence prediction or serialisation. -/
structure Tree where
  nodes : List TreeNode
  deriving Repr, DecidableEq

/-- Embeds the `GBDT` class data (gbdt.hpp): configuration, ensemble and
base score (C++ default `0.0f`). -/
structure GBDT where
  config : GBDTConfig
  trees : List Tree
  base_score : ℚ := 0
  deriving Repr, DecidableEq

/-- The runtime errors of the predict path.  `untrainedModel` is the
"Model is not trained yet" exception of `GBDT::predict`; `treeNotBuilt`
is the "Tree is not built yet" exception of `Tree::predict`;
`stuckWalk` models a `predict_one` loop that never reaches a leaf (the
C++ loop would not terminate; impossible for built trees, cf. C10). -/
inductive PredictError where
  | untrainedModel
  | treeNotBuilt
  | stuckWalk
  deriving Repr, DecidableEq

/-- The feature accessor for one row, as `Tree::predict` materialises it
(tree.cpp lines 72-76). -/
def DataMatrix.rowFun (m : DataMatrix) (r : ℕ) : ℕ → Value :=
  fun c => m.get_feature r c

/-- Embeds `Tree::predict` (tree.cpp lines 62-81): throw when the tree
has no nodes, otherwise evaluate `predict_one` on every row. -/
def tree_predict (t : Tree) (m : DataMatrix) : Except PredictError (List ℚ) :=
  if t.nodes = [] then .error .treeNotBuilt
  else (List.range m.features.length).mapM (fun r =>
    match predict_one t.nodes (m.rowFun r) with
    | some v => .ok v
    | none => .error .stuckWalk)

/-- Embeds `GBDT::predict` (gbdt.cpp lines 103-130).  The sigmoid
`1 / (1 + exp(-x))` applied for the binary task is transcendental, so it
is abstracted as the function argument `σ`; everything up to the final
link is exact rational arithmetic. -/
def gbdt_predict (σ : ℚ → ℚ) (model : GBDT) (m : DataMatrix) :
    Except PredictError (List ℚ) :=
  if model.trees = [] then .error .untrainedModel
  else do
    let preds ← model.trees.foldlM (fun preds t => do
        let tp ← tree_predict t m
        pure (List.zipWith
          (fun p q => p + model.config.learning_rate * q) preds tp))
      (List.replicate m.features.length model.base_score)
    pure (match model.config.task with
      | Task.Binary => preds.map σ
      | Task.Regression => preds)

/-- The value of one tree at one row: the result of the `predict_one`
walk (defaulting to 0 on the impossible non-terminating walk). -/
def tree_value (t : Tree) (x : ℕ → Value) : ℚ :=
  (predict_one t.nodes x).getD 0

/-- Embeds `GBDT::calculate_base_score` (gbdt.cpp lines 304-322).  The
logarithm is transcendental, so it is abstracted as the function
argument `lg`; the accumulation, mean and clipping are exact. -/
def calculate_base_score (lg : ℚ → ℚ) (cfg : GBDTConfig)
    (labels : List ℚ) : ℚ :=
  match cfg.task with
  | Task.Binary =>
    let sum := labels.foldl (fun a b => a + b) 0
    let mean := sum / (labels.length : ℚ)
    let clipped := max (1/100) (min (99/100) mean)
    lg (clipped / (1 - clipped))
  | Task.Regression =>
    (labels.foldl (fun a b => a + b) 0) / (labels.length : ℚ)

end GBDTModel

section GBDTProofs

theorem foldl_add_eq_sum (l : List ℚ) : ∀ a : ℚ,
    l.foldl (fun x y => x + y) a = a + l.sum := by
  induction l with
  | nil => intro a; simp
  | cons b t ih =>
    intro a
    rw [List.foldl_cons, ih (a + b), List.sum_cons]
    ring

/-- C8 (confirmed): for every non-empty label vector the base score is
the label mean for the regression task, and `log(μ / (1 − μ))` with `μ`
the label mean clipped to `[0.01, 0.99]` for the binary task (the
logarithm abstracted as `lg`, since `std::log` is transcendental). -/
theorem claim8_base_score (lg : ℚ → ℚ) (cfg : GBDTConfig) (labels : List ℚ)
    (hne : labels ≠ []) :
    (cfg.task = Task.Regression →
      calculate_base_score lg cfg labels = labels.sum / (labels.length : ℚ)) ∧
    (cfg.task = Task.Binary →
      calculate_base_score lg cfg labels =
        lg ((max (1/100) (min (99/100) (labels.sum / (labels.length : ℚ)))) /
          (1 - max (1/100) (min (99/100) (labels.sum / (labels.length : ℚ)))))) := by
  constructor
  · intro htask
    unfold calculate_base_score
    rw [htask]
    simp [foldl_add_eq_sum]
  · intro htask
    unfold calculate_base_score
    rw [htask]
    simp [foldl_add_eq_sum]

/-- Witness for C8 at the concrete labels `[0, 1]` (mean `1/2`, no
clipping) for both tasks. -/
theorem claim8_base_score_witness :
    (({ task := Task.Regression } : GBDTConfig).task = Task.Regression →
      calculate_base_score id { task := Task.Regression } [0, 1] =
        ([0, 1] : List ℚ).sum / (([0, 1] : List ℚ).length : ℚ)) ∧
    (({ task := Task.Regression } : GBDTConfig).task = Task.Binary →
      calculate_base_score id { task := Task.Regression } [0, 1] =
        id ((max (1/100) (min (99/100)
            (([0, 1] : List ℚ).sum / (([0, 1] : List ℚ).length : ℚ)))) /
          (1 - max (1/100) (min (99/100)
            (([0, 1] : List ℚ).sum / (([0, 1] : List ℚ).length : ℚ)))))) :=
  claim8_base_score id { task := Task.Regression } [0, 1] (by simp)

theorem except_bind_ok {α β : Type} (x : α) (k : α → Except PredictError β) :
    ((Except.ok x : Except PredictError α) >>= k) = k x := rfl

theorem except_pure_bind {α β : Type} (x : α) (k : α → Except PredictError β) :
    ((pure x : Except PredictError α) >>= k) = k x := rfl

theorem except_error_bind {α β : Type} (e : PredictError)
    (k : α → Except PredictError β) :
    ((Except.error e : Except PredictError α) >>= k) = Except.error e := rfl

theorem mapM_ok {α β : Type} (l : List α) (f : α → Except PredictError β)
    (g : α → β) (h : ∀ a ∈ l, f a = .ok (g a)) :
    l.mapM f = .ok (l.map g) := by
  induction l with
  | nil => rfl
  | cons a t ih =>
    rw [List.mapM_cons, h a (List.mem_cons_self a t),
      ih (fun a ha => h a (List.mem_cons_of_mem _ ha))]
    rfl

theorem tree_predict_ok (t : Tree) (m : DataMatrix) (hne : t.nodes ≠ [])
    (hwf : wfNodes t.nodes) :
    tree_predict t m =
      .ok ((List.range m.features.length).map
        (fun r => tree_value t (m.rowFun r))) := by
  unfold tree_predict
  rw [if_neg hne]
  apply mapM_ok
  intro r _
  have hs := predict_one_isSome t.nodes (m.rowFun r) hwf hne
  cases hps : predict_one t.nodes (m.rowFun r) with
  | none => rw [hps] at hs; simp at hs
  | some v => simp [tree_value, hps]

theorem zipWith_map_same {α β γ δ : Type} (f : β → γ → δ) (g : α → β)
    (h : α → γ) (l : List α) :
    List.zipWith f (l.map g) (l.map h) = l.map (fun x => f (g x) (h x)) := by
  induction l with
  | nil => simp
  | cons a t ih => simp [ih]

/-- The per-tree prediction-update fold of `GBDT::predict`, classified:
on an ensemble of well-formed trees it returns the pointwise
`acc + η · Σ tree contributions` when no tree is empty, and an error as
soon as some tree is empty. -/
theorem foldlM_trees_cases (m : DataMatrix) (lr : ℚ) (ts : List Tree)
    (hwf : ∀ t ∈ ts, wfNodes t.nodes) :
    ∀ A : ℕ → ℚ,
      (¬ (∃ t ∈ ts, t.nodes = []) →
        (ts.foldlM (fun preds t => do
            let tp ← tree_predict t m
            pure (List.zipWith (fun p q => p + lr * q) preds tp))
          ((List.range m.features.length).map A)) =
        .ok ((List.range m.features.length).map
          (fun r => A r + lr *
            ((ts.map (fun t => tree_value t (m.rowFun r))).sum)))) ∧
      ((∃ t ∈ ts, t.nodes = []) →
        ∃ e, (ts.foldlM (fun preds t => do
            let tp ← tree_predict t m
            pure (List.zipWith (fun p q => p + lr * q) preds tp))
          ((List.range m.features.length).map A)) = .error e) := by
  induction ts with
  | nil =>
    intro A
    refine ⟨fun _ => ?_, fun habs => by simp at habs⟩
    simp only [List.foldlM_nil, List.map_nil, List.sum_nil, mul_zero, add_zero]
    rfl
  | cons t ts ih =>
    intro A
    rw [List.foldlM_cons]
    by_cases hte : t.nodes = []
    · constructor
      · intro hno
        exact absurd ⟨t, List.mem_cons_self t ts, hte⟩ hno
      · intro _
        refine ⟨PredictError.treeNotBuilt, ?_⟩
        have h1 : tree_predict t m = .error .treeNotBuilt := by
          unfold tree_predict
          rw [if_pos hte]
        rw [h1, except_error_bind, except_error_bind]
    · rw [tree_predict_ok t m hte (hwf t (List.mem_cons_self t ts)),
        except_bind_ok, except_pure_bind, zipWith_map_same]
      obtain ⟨ih1, ih2⟩ := ih (fun t ht => hwf t (List.mem_cons_of_mem _ ht))
        (fun r => A r + lr * tree_value t (m.rowFun r))
      constructor
      · intro hno
        have hno' : ¬ (∃ u ∈ ts, u.nodes = []) := by
          intro ⟨u, hu, he⟩
          exact hno ⟨u, List.mem_cons_of_mem _ hu, he⟩
        rw [ih1 hno']
        congr 1
        apply List.map_congr_left
        intro r _
        simp only [List.map_cons, List.sum_cons]
        ring
      · intro hex
        have hex' : ∃ u ∈ ts, u.nodes = [] := by
          obtain ⟨u, hu, he⟩ := hex
          rcases List.mem_cons.mp hu with hu | hu
          · exact absurd (hu ▸ he) hte
          · exact ⟨u, hu, he⟩
        obtain ⟨e, he⟩ := ih2 hex'
        exact ⟨e, he⟩

/-- C6 (confirmed): for a model with at least one (well-formed,
non-empty) tree, `GBDT::predict` returns, for every row, `base_score +
learning_rate · Σ_t tree_t(x)` for the regression task and the sigmoid
of that quantity for the binary task, where each `tree_t(x)` is the
walk of `predict_one` (node 0; NaN or `x[f] > threshold` goes right,
else left; leaf weight at a leaf).  The sigmoid is the abstracted link
`σ`. -/
theorem claim6_predict (σ : ℚ → ℚ) (model : GBDT) (m : DataMatrix)
    (hne : model.trees ≠ [])
    (hwf : ∀ t ∈ model.trees, t.nodes ≠ [] ∧ wfNodes t.nodes) :
    gbdt_predict σ model m =
      .ok ((List.range m.features.length).map (fun r =>
        match model.config.task with
        | Task.Binary => σ (model.base_score + model.config.learning_rate *
            ((model.trees.map (fun t => tree_value t (m.rowFun r))).sum))
        | Task.Regression => model.base_score + model.config.learning_rate *
            ((model.trees.map (fun t => tree_value t (m.rowFun r))).sum))) := by
  unfold gbdt_predict
  rw [if_neg hne]
  have hinit : List.replicate m.features.length model.base_score =
      (List.range m.features.length).map (fun _ => model.base_score) := by
    rw [List.map_const']
    rw [List.length_range]
  rw [hinit]
  have hno : ¬ (∃ t ∈ model.trees, t.nodes = []) := by
    intro ⟨t, ht, he⟩
    exact (hwf t ht).1 he
  rw [(foldlM_trees_cases m model.config.learning_rate model.trees
    (fun t ht => (hwf t ht).2) (fun _ => model.base_score)).1 hno]
  cases htask : model.config.task with
  | Binary =>
    show Except.ok _ = _
    rw [List.map_map]
    rfl
  | Regression =>
    rfl

/-- A one-node tree (a single leaf of weight 5), used as the concrete
well-formed model for the predict-path witnesses. -/
def oneLeafTree : Tree := ⟨[TreeNode.leaf 0 5]⟩

/-- A model holding exactly the one-leaf tree, with default
configuration (regression, learning rate 1/10) and base score 0. -/
def modelOneLeaf : GBDT := { config := {}, trees := [oneLeafTree] }

/-- A one-row, one-column data matrix. -/
def mOneRow : DataMatrix := ⟨1, [[some 0]], []⟩

/-- A model whose ensemble is non-empty but holds a tree with no nodes
(constructible by loading a JSON model with an empty `nodes` array). -/
def modelEmptyTree : GBDT := { config := {}, trees := [⟨[]⟩] }

/-- Witness for C6 at the concrete one-leaf model and one-row matrix. -/
theorem claim6_predict_witness :
    gbdt_predict id modelOneLeaf mOneRow =
      .ok ((List.range mOneRow.features.length).map (fun r =>
        match modelOneLeaf.config.task with
        | Task.Binary => id (modelOneLeaf.base_score +
            modelOneLeaf.config.learning_rate *
            ((modelOneLeaf.trees.map
              (fun t => tree_value t (mOneRow.rowFun r))).sum))
        | Task.Regression => modelOneLeaf.base_score +
            modelOneLeaf.config.learning_rate *
            ((modelOneLeaf.trees.map
              (fun t => tree_value t (mOneRow.rowFun r))).sum))) :=
  claim6_predict id modelOneLeaf mOneRow (by simp [modelOneLeaf])
    (by decide)

/-- C9 counterexample: a model whose ensemble is non-empty but contains
an empty tree makes `GBDT::predict` raise an error (the `Tree::predict`
"Tree is not built yet" exception), refuting "raises an error only if
the ensemble is empty". -/
theorem claim9_counterexample :
    modelEmptyTree.trees ≠ [] ∧
    gbdt_predict id modelEmptyTree mOneRow =
      .error PredictError.treeNotBuilt := by
  constructor
  · simp [modelEmptyTree]
  · rfl

/-- C9 (amended): for every model of well-formed trees and every data
matrix, `GBDT::predict` raises an error iff the ensemble is empty
(`UntrainedModel`) or some tree in it has an empty node array (the
`Tree::predict` error); when it returns, the prediction vector has
exactly one entry per input row.  (The model is unchanged: the embedding
of `predict` is a pure function of the model.) -/
theorem claim9_predict_error_iff (σ : ℚ → ℚ) (model : GBDT) (m : DataMatrix)
    (hwf : ∀ t ∈ model.trees, wfNodes t.nodes) :
    ((∃ e, gbdt_predict σ model m = .error e) ↔
      (model.trees = [] ∨ ∃ t ∈ model.trees, t.nodes = [])) ∧
    ∀ ps, gbdt_predict σ model m = .ok ps →
      ps.length = m.features.length := by
  by_cases hne : model.trees = []
  · constructor
    · constructor
      · intro _
        exact Or.inl hne
      · intro _
        refine ⟨PredictError.untrainedModel, ?_⟩
        unfold gbdt_predict
        rw [if_pos hne]
    · intro ps hps
      unfold gbdt_predict at hps
      rw [if_pos hne] at hps
      exact absurd hps (by simp)
  · have hinit : List.replicate m.features.length model.base_score =
        (List.range m.features.length).map (fun _ => model.base_score) := by
      rw [List.map_const']
      rw [List.length_range]
    by_cases hemp : ∃ t ∈ model.trees, t.nodes = []
    · obtain ⟨e, he⟩ := (foldlM_trees_cases m model.config.learning_rate
        model.trees hwf (fun _ => model.base_score)).2 hemp
      have herr : gbdt_predict σ model m = .error e := by
        unfold gbdt_predict
        rw [if_neg hne, hinit, he, except_error_bind]
      constructor
      · constructor
        · intro _
          exact Or.inr hemp
        · intro _
          exact ⟨e, herr⟩
      · intro ps hps
        rw [herr] at hps
        exact absurd hps (by simp)
    · have hok := (foldlM_trees_cases m model.config.learning_rate
        model.trees hwf (fun _ => model.base_score)).1 hemp
      have hfin : gbdt_predict σ model m =
          .ok (match model.config.task with
            | Task.Binary => ((List.range m.features.length).map
                (fun r => model.base_score + model.config.learning_rate *
                  ((model.trees.map
                    (fun t => tree_value t (m.rowFun r))).sum))).map σ
            | Task.Regression => (List.range m.features.length).map
                (fun r => model.base_score + model.config.learning_rate *
                  ((model.trees.map
                    (fun t => tree_value t (m.rowFun r))).sum))) := by
        unfold gbdt_predict
        rw [if_neg hne, hinit, hok]
        rfl
      constructor
      · constructor
        · intro ⟨e, he⟩
          rw [hfin] at he
          exact absurd he (by simp)
        · intro hor
          rcases hor with hor | hor
          · exact absurd hor hne
          · exact absurd hor hemp
      · intro ps hps
        rw [hfin] at hps
        have hps' := Except.ok.inj hps
        subst hps'
        cases model.config.task <;> simp

/-- Witness for C9 at the concrete one-leaf model (no error, one
prediction for the one input row) — the hypotheses are discharged at
`modelOneLeaf` and `mOneRow`. -/
theorem claim9_predict_error_iff_witness :
    ((∃ e, gbdt_predict id modelOneLeaf mOneRow = .error e) ↔
      (modelOneLeaf.trees = [] ∨ ∃ t ∈ modelOneLeaf.trees, t.nodes = [])) ∧
    ∀ ps, gbdt_predict id modelOneLeaf mOneRow = .ok ps →
      ps.length = mOneRow.features.length :=
  claim9_predict_error_iff id modelOneLeaf mOneRow (by decide)

end GBDTProofs

section Serialization

/-- One element of the per-tree `nodes` JSON array: either
`{nodeid, leaf}` or `{nodeid, split, split_condition, yes, no, missing}`
(tree.cpp `Tree::to_xgboost_json`). -/
inductive XNode where
  | leaf (nodeid : ℕ) (weight : ℚ)
  | split (nodeid fid : ℕ) (cond : Value) (yes no miss : ℕ)
  deriving Repr, DecidableEq

/-- The `nodeid` of a serialised node. -/
def XNode.nodeid : XNode → ℕ
  | .leaf n _ => n
  | .split n _ _ _ _ _ => n

/-- Lookup in the embedded `std::unordered_map<uint32_t, uint32_t>`,
with the C++ `operator[]` default of 0 for a missing key.  The map is an
association list whose most recent insertion is first. -/
def mlookup (mp : List (ℕ × ℕ)) (k : ℕ) : ℕ :=
  (mp.lookup k).getD 0

/-- The breadth-first renumbering loop of `Tree::to_xgboost_json`
(tree.cpp lines 90-107): pop, assign the next id, push children.  The
fuel argument makes the loop structural; `size + 1` fuel suffices for
every proper tree (each index enters the queue exactly once). -/
def bfsLoop (nodes : List TreeNode) : ℕ → List ℕ → List (ℕ × ℕ) → ℕ →
    List (ℕ × ℕ)
  | 0, _, mp, _ => mp
  | _ + 1, [], mp, _ => mp
  | fuel + 1, idx :: queue, mp, counter =>
    let mp1 := (idx, counter) :: mp
    let nd := nodes.getD idx default
    if nd.is_leaf then bfsLoop nodes fuel queue mp1 (counter + 1)
    else bfsLoop nodes fuel (queue ++ [nd.left_child, nd.right_child]) mp1
      (counter + 1)

instance : Inhabited XNode := ⟨XNode.leaf 0 0⟩

/-- The record `Tree::to_xgboost_json` emits for the node at index `i`,
given the BFS renumbering map. -/
def xgbEmit (nodes : List TreeNode) (mp : List (ℕ × ℕ)) (i : ℕ) : XNode :=
  let nd := nodes.getD i default
  if nd.is_leaf then XNode.leaf (mlookup mp i) nd.weight
  else XNode.split (mlookup mp i) nd.feature_id nd.threshold
    (mlookup mp nd.left_child) (mlookup mp nd.right_child)
    (mlookup mp nd.right_child)

/-- Embeds `Tree::to_xgboost_json` (tree.cpp lines 83-134): BFS node-id
renumbering, then one record per node in index order (children and the
`missing` field mapped through the renumbering; `missing = no`). -/
def tree_to_xgboost (t : Tree) : List XNode :=
  let mp := bfsLoop t.nodes (t.nodes.length + 1) [0] [] 0
  (List.range t.nodes.length).map (xgbEmit t.nodes mp)

/-- One step of the first pass of `Tree::from_xgboost_json` (tree.cpp
lines 147-151): `node_map[node_id] = node_map.size()`.  Under C++20
sequencing the right-hand `size()` is evaluated before `operator[]`
inserts, so a fresh id is mapped to the number of distinct ids seen so
far (and the count grows); a repeated id is remapped to the unchanged
count. -/
def fpStep (acc : List (ℕ × ℕ) × ℕ) (rec : XNode) : List (ℕ × ℕ) × ℕ :=
  match acc.1.lookup rec.nodeid with
  | some _ => ((rec.nodeid, acc.2) :: acc.1, acc.2)
  | none => ((rec.nodeid, acc.2) :: acc.1, acc.2 + 1)

/-- The first pass of `Tree::from_xgboost_json`: the id-to-index map and
the node count. -/
def xgbFirstPass (records : List XNode) : List (ℕ × ℕ) × ℕ :=
  records.foldl fpStep ([], 0)

/-- The node a record writes in the second pass of
`Tree::from_xgboost_json` (tree.cpp lines 157-177): a leaf record sets
`is_leaf` and `weight` on the default-constructed node; a split record
sets `is_leaf = false`, the feature, the threshold and the remapped
children.  `depth` and `gain` are never written and keep their
defaults. -/
def xnodeToTreeNode (mp2 : List (ℕ × ℕ)) : XNode → TreeNode
  | .leaf _ w => { weight := w }
  | .split _ fid cond yes no _ =>
    { is_leaf := false, feature_id := fid, threshold := cond,
      left_child := mlookup mp2 yes, right_child := mlookup mp2 no }

/-- One write of the second pass. -/
def spStep (mp2 : List (ℕ × ℕ)) (nodes : List TreeNode) (rec : XNode) :
    List TreeNode :=
  nodes.set (mlookup mp2 rec.nodeid) (xnodeToTreeNode mp2 rec)

/-- Embeds `Tree::from_xgboost_json`: build the id map, resize to the
count with default nodes, then fill from the records. -/
def tree_from_xgboost (records : List XNode) : Tree :=
  let fp := xgbFirstPass records
  ⟨records.foldl (spStep fp.1) (List.replicate fp.2 default)⟩

/-- Embeds `GBDTConfig::validate` (config.cpp). -/
def GBDTConfig.validate (cfg : GBDTConfig) : Bool :=
  if cfg.n_rounds = 0 then false
  else if cfg.learning_rate ≤ 0 ∨ 1 < cfg.learning_rate then false
  else if cfg.max_depth = 0 ∨ 32 < cfg.max_depth then false
  else if cfg.min_data_in_leaf = 0 then false
  else if cfg.min_child_weight ≤ 0 then false
  else if cfg.reg_lambda < 0 then false
  else if cfg.n_bins = 0 ∨ 256 < cfg.n_bins then false
  else if cfg.subsample ≤ 0 ∨ 1 < cfg.subsample then false
  else if cfg.colsample ≤ 0 ∨ 1 < cfg.colsample then false
  else true

/-- The native JSON model document written by `save_model_to_json`
(serialization.cpp lines 14-55): the serialised configuration keys (note
`n_threads` is not among them) and one node-record array per tree. -/
structure ModelJson where
  task : String
  n_rounds : ℕ
  learning_rate : ℚ
  max_depth : ℕ
  min_data_in_leaf : ℕ
  min_child_weight : ℚ
  reg_lambda : ℚ
  n_bins : ℕ
  subsample : ℚ
  colsample : ℚ
  seed : ℕ
  metric : String
  trees : List (List XNode)
  deriving Repr, DecidableEq

/-- Embeds `save_model_to_json`. -/
def save_model (model : GBDT) : ModelJson :=
  { task := match model.config.task with
      | Task.Binary => "binary"
      | Task.Regression => "regression",
    n_rounds := model.config.n_rounds,
    learning_rate := model.config.learning_rate,
    max_depth := model.config.max_depth,
    min_data_in_leaf := model.config.min_data_in_leaf,
    min_child_weight := model.config.min_child_weight,
    reg_lambda := model.config.reg_lambda,
    n_bins := model.config.n_bins,
    subsample := model.config.subsample,
    colsample := model.config.colsample,
    seed := model.config.seed,
    metric := model.config.metric,
    trees := model.trees.map tree_to_xgboost }

/-- Embeds `load_model_from_json` (serialization.cpp lines 57-98): parse
the configuration (the unserialised `n_threads` and the model's
`base_score` keep their defaults), validate it through the `GBDT`
constructor, then load each tree through `Tree::from_xgboost_json`. -/
def load_model (j : ModelJson) : Except String GBDT :=
  let cfg : GBDTConfig :=
    { task := if j.task = "binary" then Task.Binary else Task.Regression,
      n_rounds := j.n_rounds,
      learning_rate := j.learning_rate,
      max_depth := j.max_depth,
      min_data_in_leaf := j.min_data_in_leaf,
      min_child_weight := j.min_child_weight,
      reg_lambda := j.reg_lambda,
      n_bins := j.n_bins,
      subsample := j.subsample,
      colsample := j.colsample,
      seed := j.seed,
      metric := j.metric }
  if cfg.validate then
    .ok { config := cfg, trees := j.trees.map tree_from_xgboost,
          base_score := 0 }
  else .error "Invalid GBDT configuration"

instance : DecidableEq (Except String GBDT)
  | .ok x, .ok y =>
    decidable_of_iff (x = y) ⟨fun h => h ▸ rfl, fun h => Except.ok.inj h⟩
  | .error e, .error f =>
    decidable_of_iff (e = f) ⟨fun h => h ▸ rfl, fun h => Except.error.inj h⟩
  | .ok _, .error _ => isFalse fun h => Except.noConfusion h
  | .error _, .ok _ => isFalse fun h => Except.noConfusion h

/-- Whether index `p` holds an internal node referencing index `j` as a
child. -/
def isChild (nodes : List TreeNode) (p j : ℕ) : Prop :=
  (nodes.getD p default).is_leaf = false ∧
  ((nodes.getD p default).left_child = j ∨
    (nodes.getD p default).right_child = j)

instance (nodes : List TreeNode) (p j : ℕ) : Decidable (isChild nodes p j) := by
  unfold isChild
  infer_instance

/-- How many child slots of the node array reference index `j`. -/
def refCount (nodes : List TreeNode) (j : ℕ) : ℕ :=
  ∑ p ∈ Finset.range nodes.length,
    (if (nodes.getD p default).is_leaf then 0
     else ((if (nodes.getD p default).left_child = j then 1 else 0) +
       (if (nodes.getD p default).right_child = j then 1 else 0)))

/-- A proper tree array: non-empty, well-formed child pointers, the root
referenced by nobody and every other index referenced exactly once.
Every array `Tree::build` emits is of this shape. -/
def properTree (nodes : List TreeNode) : Prop :=
  nodes ≠ [] ∧ wfNodes nodes ∧
  (∀ j, j < nodes.length → 1 ≤ j → refCount nodes j = 1) ∧
  refCount nodes 0 = 0

instance (nodes : List TreeNode) : Decidable (properTree nodes) := by
  unfold properTree
  infer_instance

/-- What one save/load round trip preserves of a node: the kind, and for
a leaf the weight, for an internal node feature, threshold and children;
`depth` and `gain` are reset to 0. -/
def stripNode (nd : TreeNode) : TreeNode :=
  if nd.is_leaf then { weight := nd.weight }
  else { is_leaf := false, feature_id := nd.feature_id,
         threshold := nd.threshold, left_child := nd.left_child,
         right_child := nd.right_child }

end Serialization

section AssocListLemmas

theorem lookup_cons (x y k : ℕ) (mp : List (ℕ × ℕ)) :
    ((x, y) :: mp).lookup k = if k = x then some y else mp.lookup k := by
  by_cases h : k = x
  · simp [List.lookup, h]
  · rw [if_neg h]
    have hb : (k == x) = false := by simpa using h
    simp [List.lookup, hb]

theorem lookup_mem {mp : List (ℕ × ℕ)} {k v : ℕ}
    (h : mp.lookup k = some v) : (k, v) ∈ mp := by
  induction mp with
  | nil => simp [List.lookup] at h
  | cons a t ih =>
    rcases a with ⟨x, y⟩
    rw [lookup_cons] at h
    by_cases hk : k = x
    · rw [if_pos hk] at h
      have hv := Option.some.inj h
      subst hk
      subst hv
      exact List.mem_cons_self _ _
    · rw [if_neg hk] at h
      exact List.mem_cons_of_mem _ (ih h)

theorem lookup_isSome_of_mem_keys {mp : List (ℕ × ℕ)} {k : ℕ}
    (h : k ∈ mp.map Prod.fst) : ∃ v, mp.lookup k = some v := by
  induction mp with
  | nil => simp at h
  | cons a t ih =>
    rcases a with ⟨x, y⟩
    rw [lookup_cons]
    by_cases hk : k = x
    · exact ⟨y, by rw [if_pos hk]⟩
    · rw [if_neg hk]
      apply ih
      simp at h
      rcases h with h | h
      · exact absurd h hk
      · simpa using h

theorem entries_inj_of_vals_nodup {mp : List (ℕ × ℕ)}
    (hnd : (mp.map Prod.snd).Nodup) {k1 k2 v : ℕ}
    (h1 : (k1, v) ∈ mp) (h2 : (k2, v) ∈ mp) : k1 = k2 := by
  induction mp with
  | nil => simp at h1
  | cons a t ih =>
    rcases a with ⟨x, y⟩
    simp only [List.map_cons, List.nodup_cons] at hnd
    obtain ⟨hy, hnd'⟩ := hnd
    rcases List.mem_cons.mp h1 with h1 | h1 <;>
      rcases List.mem_cons.mp h2 with h2 | h2
    · rw [Prod.mk.injEq] at h1 h2
      rw [h1.1, h2.1]
    · rw [Prod.mk.injEq] at h1
      exact absurd (h1.2 ▸ List.mem_map_of_mem Prod.snd h2) hy
    · rw [Prod.mk.injEq] at h2
      exact absurd (h2.2 ▸ List.mem_map_of_mem Prod.snd h1) hy
    · exact ih hnd' h1 h2

end AssocListLemmas

section RefCountLemmas

theorem sum_le_of_mem {F : ℕ → ℕ} {n p k : ℕ} (hp : p < n) (hf : k ≤ F p) :
    k ≤ ∑ q ∈ Finset.range n, F q :=
  le_trans hf (Finset.single_le_sum (fun i _ => Nat.zero_le _)
    (Finset.mem_range.mpr hp))

theorem sum_two_le {F : ℕ → ℕ} {n p1 p2 : ℕ} (hne : p1 ≠ p2)
    (h1 : p1 < n) (h2 : p2 < n) (hf1 : 1 ≤ F p1) (hf2 : 1 ≤ F p2) :
    2 ≤ ∑ q ∈ Finset.range n, F q := by
  rw [← Finset.add_sum_erase _ F (Finset.mem_range.mpr h1)]
  have h2' : p2 ∈ (Finset.range n).erase p1 :=
    Finset.mem_erase.mpr ⟨fun hq => hne hq.symm, Finset.mem_range.mpr h2⟩
  have hb := Finset.single_le_sum (f := F) (fun i _ => Nat.zero_le _) h2'
  omega

theorem refCount_contrib (nodes : List TreeNode) (p j : ℕ)
    (hc : isChild nodes p j) :
    1 ≤ (if (nodes.getD p default).is_leaf then 0
      else ((if (nodes.getD p default).left_child = j then 1 else 0) +
        (if (nodes.getD p default).right_child = j then 1 else 0))) := by
  obtain ⟨h1, h2⟩ := hc
  rw [h1]
  rw [if_neg (by simp)]
  rcases h2 with h2 | h2
  · rw [if_pos h2]
    omega
  · rw [if_pos h2]
    omega

theorem refCount_ge_one (nodes : List TreeNode) (p j : ℕ)
    (hp : p < nodes.length) (hc : isChild nodes p j) :
    1 ≤ refCount nodes j := by
  unfold refCount
  exact sum_le_of_mem hp (refCount_contrib nodes p j hc)

theorem refCount_ge_two_distinct (nodes : List TreeNode) (p1 p2 j : ℕ)
    (hne : p1 ≠ p2) (h1 : p1 < nodes.length) (h2 : p2 < nodes.length)
    (hc1 : isChild nodes p1 j) (hc2 : isChild nodes p2 j) :
    2 ≤ refCount nodes j := by
  unfold refCount
  exact sum_two_le hne h1 h2 (refCount_contrib nodes p1 j hc1)
    (refCount_contrib nodes p2 j hc2)

theorem refCount_ge_two_same (nodes : List TreeNode) (p j : ℕ)
    (hp : p < nodes.length)
    (hleaf : (nodes.getD p default).is_leaf = false)
    (hl : (nodes.getD p default).left_child = j)
    (hr : (nodes.getD p default).right_child = j) :
    2 ≤ refCount nodes j := by
  unfold refCount
  refine sum_le_of_mem hp ?_
  rw [hleaf]
  rw [if_neg (by simp)]
  rw [if_pos hl, if_pos hr]

theorem refCount_parent (nodes : List TreeNode) (j : ℕ)
    (h : 1 ≤ refCount nodes j) :
    ∃ p, p < nodes.length ∧ isChild nodes p j := by
  by_contra hno
  push_neg at hno
  have hz : refCount nodes j = 0 := by
    unfold refCount
    refine Finset.sum_eq_zero ?_
    intro p hp
    have hnc := hno p (Finset.mem_range.mp hp)
    unfold isChild at hnc
    push_neg at hnc
    by_cases hleaf : (nodes.getD p default).is_leaf = true
    · rw [if_pos hleaf]
    · have hfalse : (nodes.getD p default).is_leaf = false := by
        simpa using hleaf
      have hbc := hnc hfalse
      rw [if_neg hleaf, if_neg hbc.1, if_neg hbc.2]
      rfl
  omega

end RefCountLemmas

section BfsProofs

/-- The BFS renumbering map of `to_xgboost_json`, at its call site's
fuel. -/
def bfsMap (nodes : List TreeNode) : List (ℕ × ℕ) :=
  bfsLoop nodes (nodes.length + 1) [0] [] 0

/-- The loop invariant of the BFS renumbering: the counter counts the
entries, keys are distinct in-range indices disjoint from the (distinct,
in-range) queue, everything seen is the root or a child of a visited
node, children of visited nodes have been seen, and the assigned ids are
distinct values below the counter. -/
structure BfsInv (nodes : List TreeNode) (queue : List ℕ)
    (mp : List (ℕ × ℕ)) (counter : ℕ) : Prop where
  count_eq : counter = mp.length
  keys_nodup : (mp.map Prod.fst).Nodup
  keys_lt : ∀ k ∈ mp.map Prod.fst, k < nodes.length
  queue_lt : ∀ q ∈ queue, q < nodes.length
  queue_nodup : queue.Nodup
  disj : ∀ q ∈ queue, q ∉ mp.map Prod.fst
  reach : ∀ j, j ∈ mp.map Prod.fst ∨ j ∈ queue →
    j = 0 ∨ ∃ p ∈ mp.map Prod.fst, isChild nodes p j
  closed : ∀ p ∈ mp.map Prod.fst, ∀ ch, isChild nodes p ch →
    ch ∈ mp.map Prod.fst ∨ ch ∈ queue
  vals_lt : ∀ v ∈ mp.map Prod.snd, v < counter
  vals_nodup : (mp.map Prod.snd).Nodup

/-- A child of the node being popped has not been seen before: it is not
yet a key, not elsewhere in the queue, and differs from the popped
index.  Uses the unique-reference property of a proper tree. -/
theorem child_fresh (nodes : List TreeNode) (hwfn : wfNodes nodes)
    (href1 : ∀ j, j < nodes.length → 1 ≤ j → refCount nodes j = 1)
    (idx : ℕ) (rest : List ℕ) (mp : List (ℕ × ℕ)) (counter : ℕ)
    (inv : BfsInv nodes (idx :: rest) mp counter)
    (ch : ℕ) (hch : isChild nodes idx ch) :
    ch ∉ mp.map Prod.fst ∧ ch ∉ rest ∧ ch ≠ idx := by
  have hidxn : idx < nodes.length := inv.queue_lt idx (List.mem_cons_self _ _)
  have hidxnk : idx ∉ mp.map Prod.fst := inv.disj idx (List.mem_cons_self _ _)
  obtain ⟨g1, g2, g3, g4⟩ := hwfn idx hidxn hch.1
  have hchgt : idx < ch := by
    rcases hch.2 with h | h
    · omega
    · omega
  have hchn : ch < nodes.length := by
    rcases hch.2 with h | h
    · omega
    · omega
  have hfresh : ¬ (ch ∈ mp.map Prod.fst ∨ ch ∈ rest) := by
    intro hmem
    have hmem' : ch ∈ mp.map Prod.fst ∨ ch ∈ idx :: rest := by
      rcases hmem with h | h
      · exact Or.inl h
      · exact Or.inr (List.mem_cons_of_mem _ h)
    rcases inv.reach ch hmem' with h0 | ⟨p, hpk, hpc⟩
    · omega
    · have hpn : p < nodes.length := inv.keys_lt p hpk
      have hpne : p ≠ idx := fun he => hidxnk (he ▸ hpk)
      have h2 := refCount_ge_two_distinct nodes p idx ch hpne hpn hidxn hpc hch
      have h1 := href1 ch hchn (by omega)
      omega
  push_neg at hfresh
  exact ⟨hfresh.1, hfresh.2, by omega⟩

theorem bfs_run (nodes : List TreeNode) (hwfn : wfNodes nodes)
    (href1 : ∀ j, j < nodes.length → 1 ≤ j → refCount nodes j = 1) :
    ∀ (fuel : ℕ) (queue : List ℕ) (mp : List (ℕ × ℕ)) (counter : ℕ),
      BfsInv nodes queue mp counter →
      nodes.length + 1 - counter ≤ fuel →
      ∃ c2, BfsInv nodes [] (bfsLoop nodes fuel queue mp counter) c2 ∧
        ∀ k, k ∈ mp.map Prod.fst ∨ k ∈ queue →
          k ∈ (bfsLoop nodes fuel queue mp counter).map Prod.fst := by
  intro fuel
  induction fuel with
  | zero =>
    intro queue mp counter inv hfuel
    exfalso
    have hlen : (mp.map Prod.fst).length ≤ nodes.length := by
      have hsub : (mp.map Prod.fst).toFinset ⊆ Finset.range nodes.length := by
        intro x hx
        exact Finset.mem_range.mpr (inv.keys_lt x (List.mem_toFinset.mp hx))
      have hcard := Finset.card_le_card hsub
      rw [Finset.card_range] at hcard
      rw [← List.toFinset_card_of_nodup inv.keys_nodup]
      exact hcard
    have hce := inv.count_eq
    rw [List.length_map] at hlen
    omega
  | succ fuel ih =>
    intro queue mp counter inv hfuel
    cases queue with
    | nil =>
      refine ⟨counter, inv, ?_⟩
      intro k hk
      rcases hk with hk | hk
      · exact hk
      · simp at hk
    | cons idx rest =>
      have hidxn : idx < nodes.length := inv.queue_lt idx (List.mem_cons_self _ _)
      have hidxnk : idx ∉ mp.map Prod.fst := inv.disj idx (List.mem_cons_self _ _)
      have hrest_nodup : rest.Nodup := (List.nodup_cons.mp inv.queue_nodup).2
      have hidx_rest : idx ∉ rest := (List.nodup_cons.mp inv.queue_nodup).1
      -- shared invariant pieces for the extended map
      have h_count : counter + 1 = ((idx, counter) :: mp).length := by
        rw [List.length_cons, inv.count_eq]
      have h_keys_nodup : (((idx, counter) :: mp).map Prod.fst).Nodup := by
        rw [List.map_cons]
        exact List.nodup_cons.mpr ⟨hidxnk, inv.keys_nodup⟩
      have h_keys_lt : ∀ k ∈ ((idx, counter) :: mp).map Prod.fst,
          k < nodes.length := by
        intro k hk
        rw [List.map_cons, List.mem_cons] at hk
        rcases hk with hk | hk
        · exact hk ▸ hidxn
        · exact inv.keys_lt k hk
      have h_vals_lt : ∀ v ∈ ((idx, counter) :: mp).map Prod.snd,
          v < counter + 1 := by
        intro v hv
        rw [List.map_cons, List.mem_cons] at hv
        rcases hv with hv | hv
        · omega
        · have := inv.vals_lt v hv
          omega
      have h_vals_nodup : (((idx, counter) :: mp).map Prod.snd).Nodup := by
        rw [List.map_cons]
        refine List.nodup_cons.mpr ⟨?_, inv.vals_nodup⟩
        intro hmem
        exact absurd (inv.vals_lt counter hmem) (lt_irrefl counter)
      by_cases hleaf : (nodes.getD idx default).is_leaf = true
      · -- leaf pop
        have heq : bfsLoop nodes (fuel + 1) (idx :: rest) mp counter =
            bfsLoop nodes fuel rest ((idx, counter) :: mp) (counter + 1) := by
          rw [bfsLoop]
          simp only [hleaf, if_true]
        have inv1 : BfsInv nodes rest ((idx, counter) :: mp) (counter + 1) := by
          refine ⟨h_count, h_keys_nodup, h_keys_lt, ?_, hrest_nodup, ?_, ?_, ?_,
            h_vals_lt, h_vals_nodup⟩
          · intro q hq
            exact inv.queue_lt q (List.mem_cons_of_mem _ hq)
          · intro q hq hmem
            rw [List.map_cons, List.mem_cons] at hmem
            rcases hmem with hmem | hmem
            · have hqi : q = idx := hmem
              exact hidx_rest (hqi ▸ hq)
            · exact inv.disj q (List.mem_cons_of_mem _ hq) hmem
          · intro j hj
            have hj' : j ∈ mp.map Prod.fst ∨ j ∈ idx :: rest := by
              rcases hj with hj | hj
              · rw [List.map_cons, List.mem_cons] at hj
                rcases hj with hj | hj
                · exact Or.inr (hj ▸ List.mem_cons_self _ _)
                · exact Or.inl hj
              · exact Or.inr (List.mem_cons_of_mem _ hj)
            rcases inv.reach j hj' with h0 | ⟨p, hpk, hpc⟩
            · exact Or.inl h0
            · exact Or.inr ⟨p, by
                rw [List.map_cons]
                exact List.mem_cons_of_mem _ hpk, hpc⟩
          · intro p hp ch hch
            rw [List.map_cons, List.mem_cons] at hp
            rcases hp with hp | hp
            · exact absurd hch.1 (by rw [hp]; rw [hleaf]; simp)
            · rcases inv.closed p hp ch hch with h | h
              · exact Or.inl (by rw [List.map_cons]; exact List.mem_cons_of_mem _ h)
              · rcases List.mem_cons.mp h with h | h
                · exact Or.inl (by rw [List.map_cons, h]; exact List.mem_cons_self _ _)
                · exact Or.inr h
        obtain ⟨c2, hinv2, hmem2⟩ := ih rest ((idx, counter) :: mp) (counter + 1)
          inv1 (by omega)
        rw [heq]
        refine ⟨c2, hinv2, ?_⟩
        intro k hk
        apply hmem2
        rcases hk with hk | hk
        · exact Or.inl (by rw [List.map_cons]; exact List.mem_cons_of_mem _ hk)
        · rcases List.mem_cons.mp hk with hk | hk
          · exact Or.inl (by rw [List.map_cons, hk]; exact List.mem_cons_self _ _)
          · exact Or.inr hk
      · -- internal pop
        have hleaf' : (nodes.getD idx default).is_leaf = false := by
          simpa using hleaf
        obtain ⟨g1, g2, g3, g4⟩ := hwfn idx hidxn hleaf'
        have hchl : isChild nodes idx (nodes.getD idx default).left_child :=
          ⟨hleaf', Or.inl rfl⟩
        have hchr : isChild nodes idx (nodes.getD idx default).right_child :=
          ⟨hleaf', Or.inr rfl⟩
        obtain ⟨hlk, hlr, hlid⟩ := child_fresh nodes hwfn href1 idx rest mp
          counter inv _ hchl
        obtain ⟨hrk, hrr, hrid⟩ := child_fresh nodes hwfn href1 idx rest mp
          counter inv _ hchr
        have hlr_ne : (nodes.getD idx default).left_child ≠
            (nodes.getD idx default).right_child := by
          intro he
          have h2 := refCount_ge_two_same nodes idx
            (nodes.getD idx default).right_child hidxn hleaf' he rfl
          have h1 := href1 (nodes.getD idx default).right_child g4 (by omega)
          omega
        have heq : bfsLoop nodes (fuel + 1) (idx :: rest) mp counter =
            bfsLoop nodes fuel
              (rest ++ [(nodes.getD idx default).left_child,
                (nodes.getD idx default).right_child])
              ((idx, counter) :: mp) (counter + 1) := by
          rw [bfsLoop]
          simp only [hleaf', Bool.false_eq_true, if_false]
        have inv1 : BfsInv nodes
            (rest ++ [(nodes.getD idx default).left_child,
              (nodes.getD idx default).right_child])
            ((idx, counter) :: mp) (counter + 1) := by
          refine ⟨h_count, h_keys_nodup, h_keys_lt, ?_, ?_, ?_, ?_, ?_,
            h_vals_lt, h_vals_nodup⟩
          · intro q hq
            rcases List.mem_append.mp hq with hq | hq
            · exact inv.queue_lt q (List.mem_cons_of_mem _ hq)
            · rcases List.mem_cons.mp hq with hq | hq
              · exact hq ▸ g2
              · rcases List.mem_cons.mp hq with hq | hq
                · exact hq ▸ g4
                · simp at hq
          · rw [List.nodup_append]
            refine ⟨hrest_nodup, ?_, ?_⟩
            · exact List.nodup_cons.mpr ⟨by simpa using hlr_ne, by simp⟩
            · intro a ha hb
              rcases List.mem_cons.mp hb with hb | hb
              · exact hlr (hb ▸ ha)
              · rcases List.mem_cons.mp hb with hb | hb
                · exact hrr (hb ▸ ha)
                · simp at hb
          · intro q hq hmem
            rw [List.map_cons, List.mem_cons] at hmem
            rcases List.mem_append.mp hq with hq | hq
            · rcases hmem with hmem | hmem
              · have hqi : q = idx := hmem
                exact hidx_rest (hqi ▸ hq)
              · exact inv.disj q (List.mem_cons_of_mem _ hq) hmem
            · rcases List.mem_cons.mp hq with hq | hq
              · subst hq
                rcases hmem with hmem | hmem
                · exact hlid hmem
                · exact hlk hmem
              · rcases List.mem_cons.mp hq with hq | hq
                · subst hq
                  rcases hmem with hmem | hmem
                  · exact hrid hmem
                  · exact hrk hmem
                · simp at hq
          · intro j hj
            have hmain : j ∈ mp.map Prod.fst ∨ j ∈ idx :: rest →
                j = 0 ∨ ∃ p ∈ ((idx, counter) :: mp).map Prod.fst,
                  isChild nodes p j := by
              intro hj'
              rcases inv.reach j hj' with h0 | ⟨p, hpk, hpc⟩
              · exact Or.inl h0
              · exact Or.inr ⟨p, by
                  rw [List.map_cons]
                  exact List.mem_cons_of_mem _ hpk, hpc⟩
            have hidxk : idx ∈ ((idx, counter) :: mp).map Prod.fst := by
              rw [List.map_cons]
              exact List.mem_cons_self _ _
            rcases hj with hj | hj
            · rw [List.map_cons, List.mem_cons] at hj
              rcases hj with hj | hj
              · exact hmain (Or.inr (hj ▸ List.mem_cons_self _ _))
              · exact hmain (Or.inl hj)
            · rcases List.mem_append.mp hj with hj | hj
              · exact hmain (Or.inr (List.mem_cons_of_mem _ hj))
              · rcases List.mem_cons.mp hj with hj | hj
                · exact Or.inr ⟨idx, hidxk, hj ▸ hchl⟩
                · rcases List.mem_cons.mp hj with hj | hj
                  · exact Or.inr ⟨idx, hidxk, hj ▸ hchr⟩
                  · simp at hj
          · intro p hp ch hch
            rw [List.map_cons, List.mem_cons] at hp
            rcases hp with hp | hp
            · subst hp
              rcases hch.2 with h | h
              · exact Or.inr (List.mem_append.mpr (Or.inr (by
                  rw [← h]
                  exact List.mem_cons_self _ _)))
              · exact Or.inr (List.mem_append.mpr (Or.inr (by
                  rw [← h]
                  exact List.mem_cons_of_mem _ (List.mem_cons_self _ _))))
            · rcases inv.closed p hp ch hch with h | h
              · exact Or.inl (by rw [List.map_cons]; exact List.mem_cons_of_mem _ h)
              · rcases List.mem_cons.mp h with h | h
                · exact Or.inl (by rw [List.map_cons, h]; exact List.mem_cons_self _ _)
                · exact Or.inr (List.mem_append.mpr (Or.inl h))
        obtain ⟨c2, hinv2, hmem2⟩ := ih _ ((idx, counter) :: mp) (counter + 1)
          inv1 (by omega)
        rw [heq]
        refine ⟨c2, hinv2, ?_⟩
        intro k hk
        apply hmem2
        rcases hk with hk | hk
        · exact Or.inl (by rw [List.map_cons]; exact List.mem_cons_of_mem _ hk)
        · rcases List.mem_cons.mp hk with hk | hk
          · exact Or.inl (by rw [List.map_cons, hk]; exact List.mem_cons_self _ _)
          · exact Or.inr (List.mem_append.mpr (Or.inl hk))

/-- The BFS map of a proper tree enumerates exactly the indices
`0 … size-1` with distinct keys and distinct assigned ids. -/
theorem bfsMap_good (nodes : List TreeNode) (hp : properTree nodes) :
    ((bfsMap nodes).map Prod.fst).Nodup ∧
    (∀ k ∈ (bfsMap nodes).map Prod.fst, k < nodes.length) ∧
    (∀ j, j < nodes.length → j ∈ (bfsMap nodes).map Prod.fst) ∧
    ((bfsMap nodes).map Prod.snd).Nodup := by
  obtain ⟨hne, hwfn, href1, href0⟩ := hp
  have hn : 0 < nodes.length := List.length_pos.mpr hne
  have inv0 : BfsInv nodes [0] [] 0 := by
    refine ⟨rfl, by simp, by simp, ?_, by simp, by simp, ?_, by simp,
      by simp, by simp⟩
    · intro q hq
      rcases List.mem_cons.mp hq with hq | hq
      · omega
      · simp at hq
    · intro j hj
      rcases hj with hj | hj
      · simp at hj
      · rcases List.mem_cons.mp hj with hj | hj
        · exact Or.inl hj
        · simp at hj
  obtain ⟨c2, hinv, hmem⟩ := bfs_run nodes hwfn href1 (nodes.length + 1)
    [0] [] 0 inv0 (by omega)
  refine ⟨hinv.keys_nodup, hinv.keys_lt, ?_, hinv.vals_nodup⟩
  intro j
  induction j using Nat.strong_induction_on with
  | _ j ihj =>
    intro hjn
    by_cases hj0 : j = 0
    · exact hmem j (Or.inr (by rw [hj0]; exact List.mem_cons_self _ _))
    · have hrc := href1 j hjn (by omega)
      obtain ⟨p, hpn, hpc⟩ := refCount_parent nodes j (by omega)
      have hpj : p < j := by
        obtain ⟨w1, w2, w3, w4⟩ := hwfn p hpn hpc.1
        rcases hpc.2 with h | h
        · omega
        · omega
      have hpk := ihj p hpj hpn
      rcases hinv.closed p hpk j hpc with h | h
      · exact h
      · simp at h

end BfsProofs

section PassProofs

theorem bfsMap_lookup_inj (nodes : List TreeNode) (hp : properTree nodes)
    (i1 i2 : ℕ) (h1 : i1 < nodes.length) (h2 : i2 < nodes.length)
    (h : mlookup (bfsMap nodes) i1 = mlookup (bfsMap nodes) i2) : i1 = i2 := by
  obtain ⟨hknd, hklt, htot, hvnd⟩ := bfsMap_good nodes hp
  obtain ⟨v1, hv1⟩ := lookup_isSome_of_mem_keys (htot i1 h1)
  obtain ⟨v2, hv2⟩ := lookup_isSome_of_mem_keys (htot i2 h2)
  have hm1 := lookup_mem hv1
  have hm2 := lookup_mem hv2
  have hveq : v1 = v2 := by
    unfold mlookup at h
    rw [hv1, hv2] at h
    simpa using h
  exact entries_inj_of_vals_nodup hvnd hm1 (hveq ▸ hm2)

theorem xgbEmit_nodeid (nodes : List TreeNode) (mp : List (ℕ × ℕ)) (i : ℕ) :
    (xgbEmit nodes mp i).nodeid = mlookup mp i := by
  unfold xgbEmit
  by_cases h : (nodes.getD i default).is_leaf = true
  · rw [if_pos h]
    rfl
  · rw [if_neg h]
    rfl

theorem to_xgboost_length (t : Tree) :
    (tree_to_xgboost t).length = t.nodes.length := by
  unfold tree_to_xgboost
  rw [List.length_map, List.length_range]

theorem to_xgboost_getD (t : Tree) (i : ℕ) (hi : i < t.nodes.length) :
    (tree_to_xgboost t).getD i default = xgbEmit t.nodes (bfsMap t.nodes) i := by
  unfold tree_to_xgboost
  exact getD_map_range _ _ _ hi _

theorem firstPass_go (rs : List XNode) :
    ∀ (mp0 : List (ℕ × ℕ)) (c0 : ℕ),
      (∀ r ∈ rs, mp0.lookup r.nodeid = none) →
      (rs.map XNode.nodeid).Nodup →
      (rs.foldl fpStep (mp0, c0)).2 = c0 + rs.length ∧
      (∀ k, (∀ r ∈ rs, r.nodeid ≠ k) →
        (rs.foldl fpStep (mp0, c0)).1.lookup k = mp0.lookup k) ∧
      (∀ i, i < rs.length →
        (rs.foldl fpStep (mp0, c0)).1.lookup ((rs.getD i default).nodeid) =
          some (c0 + i)) := by
  induction rs with
  | nil =>
    intro mp0 c0 _ _
    refine ⟨rfl, fun k _ => rfl, fun i hi => absurd hi (by simp)⟩
  | cons r rest ih =>
    intro mp0 c0 hdis hnd
    rw [List.map_cons, List.nodup_cons] at hnd
    obtain ⟨hrn, hnd2⟩ := hnd
    have hstep : fpStep (mp0, c0) r = ((r.nodeid, c0) :: mp0, c0 + 1) := by
      unfold fpStep
      rw [hdis r (List.mem_cons_self _ _)]
    rw [List.foldl_cons, hstep]
    have hdis2 : ∀ u ∈ rest, ((r.nodeid, c0) :: mp0).lookup u.nodeid = none := by
      intro u hu
      rw [lookup_cons]
      have hne : u.nodeid ≠ r.nodeid := by
        intro he
        exact hrn (he ▸ List.mem_map_of_mem XNode.nodeid hu)
      rw [if_neg hne]
      exact hdis u (List.mem_cons_of_mem _ hu)
    obtain ⟨ihc, ihpre, ihpos⟩ := ih ((r.nodeid, c0) :: mp0) (c0 + 1) hdis2 hnd2
    refine ⟨?_, ?_, ?_⟩
    · rw [ihc, List.length_cons]
      omega
    · intro k hk
      rw [ihpre k (fun u hu => hk u (List.mem_cons_of_mem _ hu))]
      rw [lookup_cons]
      have hne : k ≠ r.nodeid := fun he => hk r (List.mem_cons_self _ _) he.symm
      rw [if_neg hne]
    · intro i hi
      match i with
      | 0 =>
        have hpre : (rest.foldl fpStep ((r.nodeid, c0) :: mp0, c0 + 1)).1.lookup
            r.nodeid = ((r.nodeid, c0) :: mp0).lookup r.nodeid := by
          refine ihpre r.nodeid ?_
          intro u hu he
          exact hrn (he ▸ List.mem_map_of_mem XNode.nodeid hu)
        rw [List.getD_cons_zero]
        rw [hpre, lookup_cons, if_pos rfl, Nat.add_zero]
      | i + 1 =>
        rw [List.getD_cons_succ]
        have hpos := ihpos i (by
          rw [List.length_cons] at hi
          omega)
        rw [hpos]
        congr 1
        omega

theorem foldl_spStep_length (mp2 : List (ℕ × ℕ)) (rs : List XNode) :
    ∀ L : List TreeNode, (rs.foldl (spStep mp2) L).length = L.length := by
  induction rs with
  | nil => intro L; rfl
  | cons r rest ih =>
    intro L
    rw [List.foldl_cons, ih]
    unfold spStep
    rw [List.length_set]

theorem secondPass_go (mp2 : List (ℕ × ℕ)) (rs : List XNode) :
    ∀ (off : ℕ) (L : List TreeNode),
      off + rs.length ≤ L.length →
      (∀ i, i < rs.length →
        mlookup mp2 ((rs.getD i default).nodeid) = off + i) →
      ∀ j, (rs.foldl (spStep mp2) L).getD j default =
        if off ≤ j ∧ j < off + rs.length then
          xnodeToTreeNode mp2 (rs.getD (j - off) default)
        else L.getD j default := by
  induction rs with
  | nil =>
    intro off L _ _ j
    rw [List.length_nil, if_neg (by omega)]
    rfl
  | cons r rest ih =>
    intro off L hlen hpos j
    have hpos0 : mlookup mp2 (r.nodeid) = off := by
      have h0 := hpos 0 (by rw [List.length_cons]; omega)
      rw [List.getD_cons_zero] at h0
      rw [h0]
      omega
    have hwrite : spStep mp2 L r = L.set off (xnodeToTreeNode mp2 r) := by
      unfold spStep
      rw [hpos0]
    rw [List.foldl_cons, hwrite]
    rw [List.length_cons] at hlen
    have hlen2 : (off + 1) + rest.length ≤
        (L.set off (xnodeToTreeNode mp2 r)).length := by
      rw [List.length_set]
      omega
    have hpos2 : ∀ i, i < rest.length →
        mlookup mp2 ((rest.getD i default).nodeid) = (off + 1) + i := by
      intro i hi
      have h1 := hpos (i + 1) (by rw [List.length_cons]; omega)
      rw [List.getD_cons_succ] at h1
      rw [h1]
      omega
    have ihj := ih (off + 1) (L.set off (xnodeToTreeNode mp2 r)) hlen2 hpos2 j
    rw [ihj, List.length_cons]
    by_cases hcase : off + 1 ≤ j ∧ j < (off + 1) + rest.length
    · rw [if_pos hcase, if_pos (by omega)]
      have hsub : j - off = (j - (off + 1)) + 1 := by omega
      rw [hsub, List.getD_cons_succ]
    · rw [if_neg hcase]
      by_cases hj : j = off
      · subst hj
        rw [if_pos (by omega)]
        rw [getD_set_self _ _ _ _ (by omega)]
        rw [Nat.sub_self, List.getD_cons_zero]
      · rw [if_neg (by omega)]
        rw [getD_set_ne _ _ _ _ _ (fun he => hj he.symm)]

end PassProofs

section RoundTrip

theorem getD_eq_getElem_of_lt {α : Type} [Inhabited α] (l : List α) (j : ℕ)
    (h : j < l.length) : l.getD j default = l[j] := by
  rw [List.getD_eq_getElem?_getD, List.getElem?_eq_getElem h]
  rfl

theorem xgbEmit_leaf (nodes : List TreeNode) (mp : List (ℕ × ℕ)) (i : ℕ)
    (h : (nodes.getD i default).is_leaf = true) :
    xgbEmit nodes mp i =
      XNode.leaf (mlookup mp i) (nodes.getD i default).weight := by
  unfold xgbEmit
  rw [if_pos h]

theorem xgbEmit_internal (nodes : List TreeNode) (mp : List (ℕ × ℕ)) (i : ℕ)
    (h : (nodes.getD i default).is_leaf = false) :
    xgbEmit nodes mp i =
      XNode.split (mlookup mp i) (nodes.getD i default).feature_id
        (nodes.getD i default).threshold
        (mlookup mp (nodes.getD i default).left_child)
        (mlookup mp (nodes.getD i default).right_child)
        (mlookup mp (nodes.getD i default).right_child) := by
  unfold xgbEmit
  rw [if_neg (by rw [h]; simp)]

theorem stripNode_leaf (nd : TreeNode) (h : nd.is_leaf = true) :
    stripNode nd = { weight := nd.weight } := by
  unfold stripNode
  rw [if_pos h]

theorem stripNode_internal (nd : TreeNode) (h : nd.is_leaf = false) :
    stripNode nd =
      { is_leaf := false, feature_id := nd.feature_id,
        threshold := nd.threshold, left_child := nd.left_child,
        right_child := nd.right_child } := by
  unfold stripNode
  rw [if_neg (by rw [h]; simp)]

theorem xnodeToTreeNode_leaf (mp2 : List (ℕ × ℕ)) (nid : ℕ) (w : ℚ) :
    xnodeToTreeNode mp2 (XNode.leaf nid w) = { weight := w } := rfl

theorem xnodeToTreeNode_split (mp2 : List (ℕ × ℕ)) (nid fid : ℕ)
    (cond : Value) (yes no miss : ℕ) :
    xnodeToTreeNode mp2 (XNode.split nid fid cond yes no miss) =
      { is_leaf := false, feature_id := fid, threshold := cond,
        left_child := mlookup mp2 yes, right_child := mlookup mp2 no } := rfl

/-- Saving a proper tree in the XGBoost node-record format and loading
it back recovers the tree up to the fields the format does not carry:
every node keeps its kind, leaves keep their weight, internal nodes keep
feature id, threshold and both child indices, while `depth` and `gain`
reset to 0 (`stripNode`). -/
theorem tree_roundtrip (t : Tree) (hp : properTree t.nodes) :
    tree_from_xgboost (tree_to_xgboost t) = ⟨t.nodes.map stripNode⟩ := by
  have hwfn := hp.2.1
  have hlen : (tree_to_xgboost t).length = t.nodes.length := to_xgboost_length t
  have hnodeid : ∀ i, i < t.nodes.length →
      ((tree_to_xgboost t).getD i default).nodeid =
        mlookup (bfsMap t.nodes) i := by
    intro i hi
    rw [to_xgboost_getD t i hi, xgbEmit_nodeid]
  have hmapeq : (tree_to_xgboost t).map XNode.nodeid =
      (List.range t.nodes.length).map (fun i => mlookup (bfsMap t.nodes) i) := by
    show ((List.range t.nodes.length).map
      (xgbEmit t.nodes (bfsMap t.nodes))).map XNode.nodeid = _
    rw [List.map_map]
    apply List.map_congr_left
    intro i _
    exact xgbEmit_nodeid _ _ i
  have hnodup : ((tree_to_xgboost t).map XNode.nodeid).Nodup := by
    rw [hmapeq]
    refine List.Nodup.map_on ?_ (List.nodup_range t.nodes.length)
    intro x hx y hy hxy
    exact bfsMap_lookup_inj t.nodes hp x y (List.mem_range.mp hx)
      (List.mem_range.mp hy) hxy
  obtain ⟨hc, hpre, hpos⟩ :=
    firstPass_go (tree_to_xgboost t) [] 0 (fun r _ => rfl) hnodup
  have hml : ∀ i, i < (tree_to_xgboost t).length →
      mlookup (xgbFirstPass (tree_to_xgboost t)).1
        (((tree_to_xgboost t).getD i default).nodeid) = 0 + i := by
    intro i hi
    unfold mlookup
    rw [show (xgbFirstPass (tree_to_xgboost t)).1 =
      ((tree_to_xgboost t).foldl fpStep ([], 0)).1 from rfl]
    rw [hpos i hi]
    rfl
  have hcount : (xgbFirstPass (tree_to_xgboost t)).2 = t.nodes.length := by
    rw [show (xgbFirstPass (tree_to_xgboost t)).2 =
      ((tree_to_xgboost t).foldl fpStep ([], 0)).2 from rfl]
    rw [hc, hlen]
    omega
  have hsp := secondPass_go (xgbFirstPass (tree_to_xgboost t)).1
    (tree_to_xgboost t) 0
    (List.replicate (xgbFirstPass (tree_to_xgboost t)).2 default)
    (by rw [List.length_replicate, hcount]; omega) hml
  show Tree.mk _ = Tree.mk _
  refine congrArg Tree.mk ?_
  apply List.ext_getElem
  · rw [foldl_spStep_length, List.length_replicate, hcount, List.length_map]
  · intro j hj1 hj2
    have hjn : j < t.nodes.length := by
      rw [List.length_map] at hj2
      exact hj2
    have hgetD := hsp j
    rw [if_pos ⟨Nat.zero_le j, by rw [hlen]; omega⟩, Nat.sub_zero] at hgetD
    rw [← getD_eq_getElem_of_lt _ _ hj1, ← getD_eq_getElem_of_lt _ _ hj2]
    rw [hgetD]
    have hrec : (tree_to_xgboost t).getD j default =
        xgbEmit t.nodes (bfsMap t.nodes) j := to_xgboost_getD t j hjn
    rw [hrec]
    have hmapR : (t.nodes.map stripNode).getD j default =
        stripNode (t.nodes.getD j default) :=
      getD_map_of_lt stripNode t.nodes j hjn default default
    rw [hmapR]
    by_cases hleaf : (t.nodes.getD j default).is_leaf = true
    · rw [xgbEmit_leaf _ _ _ hleaf, stripNode_leaf _ hleaf,
        xnodeToTreeNode_leaf]
    · have hleaf2 : (t.nodes.getD j default).is_leaf = false := by
        simpa using hleaf
      obtain ⟨g1, g2, g3, g4⟩ := hwfn j hjn hleaf2
      have hchild : ∀ c, c < t.nodes.length →
          mlookup (xgbFirstPass (tree_to_xgboost t)).1
            (mlookup (bfsMap t.nodes) c) = c := by
        intro c hc2
        have h1 := hml c (by rw [hlen]; omega)
        rw [hnodeid c hc2] at h1
        rw [h1]
        omega
      rw [xgbEmit_internal _ _ _ hleaf2, stripNode_internal _ hleaf2,
        xnodeToTreeNode_split, hchild _ g2, hchild _ g4]

theorem task_string_roundtrip (tk : Task) :
    (if (match tk with
      | Task.Binary => "binary"
      | Task.Regression => "regression") = "binary"
     then Task.Binary else Task.Regression) = tk := by
  cases tk
  · rw [show (match Task.Regression with
      | Task.Binary => "binary"
      | Task.Regression => "regression") = "regression" from rfl]
    rw [if_neg (by decide)]
  · rw [show (match Task.Binary with
      | Task.Binary => "binary"
      | Task.Regression => "regression") = "binary" from rfl]
    rw [if_pos rfl]

/-- A concrete three-node tree whose internal node stores a non-zero
gain, and whose leaves sit at depth 1.  It is a proper tree. -/
def rtTree : Tree := ⟨[
  { is_leaf := false, depth := 0, feature_id := 0, threshold := some 1,
    left_child := 1, right_child := 2, gain := 5 },
  TreeNode.leaf 1 10, TreeNode.leaf 1 20]⟩

/-- A valid configuration that differs from the defaults in
`learning_rate` (an exact 1) and `n_threads` (7). -/
def rtConfig : GBDTConfig := { learning_rate := 1, n_threads := 7 }

/-- The concrete model used to refute the round-trip claim. -/
def rtModel : GBDT := { config := rtConfig, trees := [rtTree] }

/-- C4 counterexample: saving `rtModel` to the native JSON format and
loading it back does not return the original model: the loaded tree's
internal node has `gain = 0` instead of 5 and its leaves have
`depth = 0` instead of 1 (neither field is serialised), and the loaded
configuration has the default `n_threads = -1` instead of 7 (the key is
not written).  So `load(save(model)) == model` fails. -/
theorem claim4_counterexample :
    load_model (save_model rtModel) ≠ .ok rtModel := by
  decide

/-- C4 (amended): for every model with a valid configuration whose trees
are proper (as all built trees are), `load(save(model))` succeeds and
returns the model up to exactly the unserialised data: the configuration
round-trips except `n_threads` (reset to the default -1), every tree
round-trips up to `stripNode` — node kinds, feature ids, thresholds,
child structure and leaf weights are preserved exactly (rational-exact,
hence float-exact), while each node's `depth` and `gain` are reset to
0 — and the unserialised `base_score` resets to 0. -/
theorem claim4_model_roundtrip (model : GBDT)
    (hval : model.config.validate = true)
    (hp : ∀ t ∈ model.trees, properTree t.nodes) :
    load_model (save_model model) = .ok
      { config := { model.config with n_threads := -1 },
        trees := model.trees.map (fun t => Tree.mk (t.nodes.map stripNode)),
        base_score := 0 } := by
  have htrees : (model.trees.map tree_to_xgboost).map tree_from_xgboost =
      model.trees.map (fun t => Tree.mk (t.nodes.map stripNode)) := by
    rw [List.map_map]
    apply List.map_congr_left
    intro t ht
    exact tree_roundtrip t (hp t ht)
  unfold load_model
  simp only [save_model]
  rw [task_string_roundtrip model.config.task]
  split
  next hv =>
    rw [htrees]
  next hv =>
    exact absurd hval hv

/-- Witness for the amended C4 at the concrete `rtModel`. -/
theorem claim4_model_roundtrip_witness :
    load_model (save_model rtModel) = .ok
      { config := { rtModel.config with n_threads := -1 },
        trees := rtModel.trees.map (fun t => Tree.mk (t.nodes.map stripNode)),
        base_score := 0 } :=
  claim4_model_roundtrip rtModel (by decide) (by decide)

end RoundTrip

end BoostedPP
